import Mathlib

/-!
Shallow embedding of the key-path parser and nested-structure builder of
`src/fodantic/parser.py`.

The Python module has three functions:

* `parse_key(key)` — tokenizes a flat key such as `"a[b][0][]"` into a list of
  parts (`str` for field names, `int` for indices, `None` for the append
  marker), using `re.findall` with the pattern
  `name | \[name\] | \[[0-9]+\] | \[\]`.
* `insert(parsed_key, value, target)` — walks the parsed key through the
  mutable `target` tree, creating intermediate containers.
* `parse(reqdata)` — the driver: normalizes each entry's values to a list and
  performs one `insert` per value.

The embedding is purely functional: Python's in-place mutation becomes
rebuilding of the traversed spine, and every statement that can raise
(`assert` failures, `TypeError` from indexing a list/scalar with a string
key, etc.) becomes `Except.error` with an indicative message.  Python `None`
is the constructor `Node.none_`; Python dicts are insertion-ordered
association lists with the usual "update keeps the position, new keys go to
the end" semantics.

Modelling notes on character-level fidelity:
* the regex character classes are translated literally from
  `re_valid_name = [_a-zA-Z -퟿豈-﷏ﷰ-￯][...0-9....]*`;
* `str.strip()` is modelled by `pyStrip` over the exact set of code points
  Python treats as whitespace;
* `str.isdigit()` holds for characters of Unicode `Numeric_Type` `Decimal`
  or `Digit`, and `int()` succeeds exactly on decimal (`Nd`) digit
  characters; both are modelled by explicit code-point tables
  (`pyDecDigitVal`, `pyIsDigitChar`) that enumerate every such character
  inside the ranges reachable through `re_valid_key` (the `re_valid_name`
  classes plus ASCII digits).  A bracketed name that passes `isdigit()` but
  contains a non-decimal digit character (for example a superscript two)
  makes the real `int(inner)` raise `ValueError`, so `parse_key` is fallible
  and is modelled with `Except`.
-/

namespace Fodantic

/-- A parsed key part: Python `str` (field name), `int` (list index) or
`None` (append marker) as produced by `parse_key`. -/
inductive Part where
  | name (s : String)
  | idx (k : Nat)
  | append
deriving DecidableEq, Repr

/-- A value in the nested result tree (and also an input value): Python
`None`, an opaque scalar (modelled as strings and integers, which is what the
repository's tests use), an insertion-ordered dict, or a list. -/
inductive Node where
  | none_
  | str (s : String)
  | int (n : Int)
  | dict (entries : List (String × Node))
  | list (elems : List Node)
deriving Repr

/-- ASCII digits: the `[0-9]` class of `re_valid_key`. -/
def isAsciiDigit (c : Char) : Bool :=
  48 ≤ c.toNat && c.toNat ≤ 57

/-- First-character class of `re_valid_name`:
`[_a-zA-Z -퟿豈-﷏ﷰ-￯]`. -/
def isNameStart (c : Char) : Bool :=
  c = '_' || (97 ≤ c.toNat && c.toNat ≤ 122) || (65 ≤ c.toNat && c.toNat ≤ 90)
  || (0xA0 ≤ c.toNat && c.toNat ≤ 0xD7FF)
  || (0xF900 ≤ c.toNat && c.toNat ≤ 0xFDCF)
  || (0xFDF0 ≤ c.toNat && c.toNat ≤ 0xFFEF)

/-- Continuation class of `re_valid_name`: the start class plus `[0-9]` and
the literal dot. -/
def isNameCont (c : Char) : Bool :=
  isNameStart c || isAsciiDigit c || c = '.'

/-- The set of code points stripped by Python's `str.strip()`
(i.e. those for which `str.isspace()` holds). -/
def pyIsSpace (c : Char) : Bool :=
  c.toNat = 0x20 || (0x9 ≤ c.toNat && c.toNat ≤ 0xD)
  || (0x1C ≤ c.toNat && c.toNat ≤ 0x1F)
  || c.toNat = 0x85 || c.toNat = 0xA0 || c.toNat = 0x1680
  || (0x2000 ≤ c.toNat && c.toNat ≤ 0x200A)
  || c.toNat = 0x2028 || c.toNat = 0x2029 || c.toNat = 0x202F
  || c.toNat = 0x205F || c.toNat = 0x3000

/-- Python `str.strip()`: drop leading and trailing whitespace. -/
def pyStrip (l : List Char) : List Char :=
  ((l.dropWhile pyIsSpace).reverse.dropWhile pyIsSpace).reverse

/-- One attempt of `rx_valid_key` at the current position (`c` is the current
character, `cs` the characters after it).  The alternatives are tried in the
regex's order: a bare name, `\[name\]`, `\[[0-9]+\]`, `\[\]`.  Since `]` is
neither a name character nor a digit, the greedy runs never need to
backtrack: after a maximal run the very next character either is `]`
(success) or the whole alternative fails.  Returns the matched characters and
the remaining input. -/
def matchAt (c : Char) (cs : List Char) : Option (List Char × List Char) :=
  if isNameStart c then
    some (c :: cs.takeWhile isNameCont, cs.dropWhile isNameCont)
  else if c = '[' then
    match cs with
    | [] => none
    | d :: cs2 =>
      if isNameStart d then
        match cs2.dropWhile isNameCont with
        | ']' :: rest => some ('[' :: d :: (cs2.takeWhile isNameCont ++ [']']), rest)
        | _ => none
      else if isAsciiDigit d then
        match cs2.dropWhile isAsciiDigit with
        | ']' :: rest => some ('[' :: d :: (cs2.takeWhile isAsciiDigit ++ [']']), rest)
        | _ => none
      else if d = ']' then
        some (['[', ']'], cs2)
      else none
  else none

/-- Fuelled scanner for `re.findall(rx_valid_key, ...)`: leftmost,
non-overlapping matches; a
position where no alternative matches is skipped.  Each successful match
consumes at least one character and a failed position consumes exactly one,
so fuel equal to the input length never runs out (when the fuel hits 0 the
input is already empty). -/
def findallF : Nat → List Char → List (List Char)
  | 0, _ => []
  | _ + 1, [] => []
  | fuel + 1, c :: cs =>
    match matchAt c cs with
    | some (tok, rest) => tok :: findallF fuel rest
    | none => findallF fuel cs

/-- All matches of `rx_valid_key` in the input. -/
def findall (l : List Char) : List (List Char) :=
  findallF l.length l

/-- Decimal digit value of a character, `none` for non-decimal characters:
the code points of Unicode category `Nd` (those accepted by Python's
`int()`), restricted to the ranges reachable through `re_valid_key` — ASCII
digits plus the `re_valid_name` ranges U+00A0..U+D7FF, U+F900..U+FDCF and
U+FDF0..U+FFEF.  Every `Nd` range lies entirely inside or outside those
ranges, and each holds the digits 0..9 in order. -/
def pyDecDigitVal (c : Char) : Option Nat :=
  let n := c.toNat
  if 0x30 ≤ n ∧ n ≤ 0x39 then some (n - 0x30)          -- ASCII
  else if 0x660 ≤ n ∧ n ≤ 0x669 then some (n - 0x660)  -- Arabic-Indic
  else if 0x6F0 ≤ n ∧ n ≤ 0x6F9 then some (n - 0x6F0)  -- Extended Arabic-Indic
  else if 0x7C0 ≤ n ∧ n ≤ 0x7C9 then some (n - 0x7C0)  -- NKo
  else if 0x966 ≤ n ∧ n ≤ 0x96F then some (n - 0x966)  -- Devanagari
  else if 0x9E6 ≤ n ∧ n ≤ 0x9EF then some (n - 0x9E6)  -- Bengali
  else if 0xA66 ≤ n ∧ n ≤ 0xA6F then some (n - 0xA66)  -- Gurmukhi
  else if 0xAE6 ≤ n ∧ n ≤ 0xAEF then some (n - 0xAE6)  -- Gujarati
  else if 0xB66 ≤ n ∧ n ≤ 0xB6F then some (n - 0xB66)  -- Oriya
  else if 0xBE6 ≤ n ∧ n ≤ 0xBEF then some (n - 0xBE6)  -- Tamil
  else if 0xC66 ≤ n ∧ n ≤ 0xC6F then some (n - 0xC66)  -- Telugu
  else if 0xCE6 ≤ n ∧ n ≤ 0xCEF then some (n - 0xCE6)  -- Kannada
  else if 0xD66 ≤ n ∧ n ≤ 0xD6F then some (n - 0xD66)  -- Malayalam
  else if 0xDE6 ≤ n ∧ n ≤ 0xDEF then some (n - 0xDE6)  -- Sinhala Lith
  else if 0xE50 ≤ n ∧ n ≤ 0xE59 then some (n - 0xE50)  -- Thai
  else if 0xED0 ≤ n ∧ n ≤ 0xED9 then some (n - 0xED0)  -- Lao
  else if 0xF20 ≤ n ∧ n ≤ 0xF29 then some (n - 0xF20)  -- Tibetan
  else if 0x1040 ≤ n ∧ n ≤ 0x1049 then some (n - 0x1040)  -- Myanmar
  else if 0x1090 ≤ n ∧ n ≤ 0x1099 then some (n - 0x1090)  -- Myanmar Shan
  else if 0x17E0 ≤ n ∧ n ≤ 0x17E9 then some (n - 0x17E0)  -- Khmer
  else if 0x1810 ≤ n ∧ n ≤ 0x1819 then some (n - 0x1810)  -- Mongolian
  else if 0x1946 ≤ n ∧ n ≤ 0x194F then some (n - 0x1946)  -- Limbu
  else if 0x19D0 ≤ n ∧ n ≤ 0x19D9 then some (n - 0x19D0)  -- New Tai Lue
  else if 0x1A80 ≤ n ∧ n ≤ 0x1A89 then some (n - 0x1A80)  -- Tai Tham Hora
  else if 0x1A90 ≤ n ∧ n ≤ 0x1A99 then some (n - 0x1A90)  -- Tai Tham Tham
  else if 0x1B50 ≤ n ∧ n ≤ 0x1B59 then some (n - 0x1B50)  -- Balinese
  else if 0x1BB0 ≤ n ∧ n ≤ 0x1BB9 then some (n - 0x1BB0)  -- Sundanese
  else if 0x1C40 ≤ n ∧ n ≤ 0x1C49 then some (n - 0x1C40)  -- Lepcha
  else if 0x1C50 ≤ n ∧ n ≤ 0x1C59 then some (n - 0x1C50)  -- Ol Chiki
  else if 0xA620 ≤ n ∧ n ≤ 0xA629 then some (n - 0xA620)  -- Vai
  else if 0xA8D0 ≤ n ∧ n ≤ 0xA8D9 then some (n - 0xA8D0)  -- Saurashtra
  else if 0xA900 ≤ n ∧ n ≤ 0xA909 then some (n - 0xA900)  -- Kayah Li
  else if 0xA9D0 ≤ n ∧ n ≤ 0xA9D9 then some (n - 0xA9D0)  -- Javanese
  else if 0xA9F0 ≤ n ∧ n ≤ 0xA9F9 then some (n - 0xA9F0)  -- Myanmar Tai Laing
  else if 0xAA50 ≤ n ∧ n ≤ 0xAA59 then some (n - 0xAA50)  -- Cham
  else if 0xABF0 ≤ n ∧ n ≤ 0xABF9 then some (n - 0xABF0)  -- Meetei Mayek
  else if 0xFF10 ≤ n ∧ n ≤ 0xFF19 then some (n - 0xFF10)  -- Fullwidth
  else none

/-- Python's per-character `str.isdigit()` test (Unicode `Numeric_Type` is
`Decimal` or `Digit`), restricted to the same reachable ranges: the decimal
digits above plus the `Numeric_Type=Digit` code points — superscripts and
subscripts, Ethiopic digits, the New Tai Lue Tham digit, and the circled /
parenthesized / full-stop / dingbat digit series. -/
def pyIsDigitChar (c : Char) : Bool :=
  (pyDecDigitVal c).isSome ||
  (let n := c.toNat
   n = 0xB2 || n = 0xB3 || n = 0xB9                      -- superscript 2, 3, 1
   || (0x1369 ≤ n && n ≤ 0x1371)                         -- Ethiopic 1..9
   || n = 0x19DA                                          -- New Tai Lue Tham 1
   || n = 0x2070 || (0x2074 ≤ n && n ≤ 0x2079)           -- superscripts 0, 4..9
   || (0x2080 ≤ n && n ≤ 0x2089)                         -- subscripts 0..9
   || (0x2460 ≤ n && n ≤ 0x2468)                         -- circled 1..9
   || (0x2474 ≤ n && n ≤ 0x247C)                         -- parenthesized 1..9
   || (0x2488 ≤ n && n ≤ 0x2490)                         -- full-stop 1..9
   || n = 0x24EA                                          -- circled 0
   || (0x24F5 ≤ n && n ≤ 0x24FD)                         -- double circled 1..9
   || (0x2776 ≤ n && n ≤ 0x277E)                         -- dingbat negative circled
   || (0x2780 ≤ n && n ≤ 0x2788)                         -- dingbat circled sans-serif
   || (0x278A ≤ n && n ≤ 0x2792))                        -- dingbat negative sans-serif

/-- Python `inner.isdigit()`: non-empty and every character has the digit
property. -/
def pyStrIsDigit (l : List Char) : Bool :=
  !l.isEmpty && l.all pyIsDigitChar

/-- Python `int(inner)` on a string that passed `isdigit()`: succeeds iff
every character is a decimal (`Nd`) digit, producing its base-10 value;
otherwise `int` raises `ValueError`. -/
def pyInt (l : List Char) : Option Nat :=
  if l.all (fun c => (pyDecDigitVal c).isSome) then
    some (l.foldl (fun n c => 10 * n + (pyDecDigitVal c).getD 0) 0)
  else none

/-- The loop body of `parse_key`: classify one matched token.
`if part.startswith("[") and part.endswith("]"): inner = part[1:-1].strip();
...` — empty brackets give the append marker, digit contents give an index
via `int(inner)` (which can raise `ValueError` on non-decimal digit
characters), anything else is a field name. -/
def classifyPart (part : List Char) : Except String Part :=
  if part.head? = some '[' ∧ part.getLast? = some ']' then
    let inner := pyStrip (part.drop 1).dropLast
    if inner = [] then Except.ok Part.append
    else if pyStrIsDigit inner then
      match pyInt inner with
      | some n => Except.ok (Part.idx n)
      | none => Except.error "ValueError: invalid literal for int"
    else Except.ok (Part.name (String.mk inner))
  else Except.ok (Part.name (String.mk part))

/-- The classification loop of `parse_key`: left to right, stopping at the
first raising token (Python appends to `parsed` until a raise propagates). -/
def classifyAll : List (List Char) → Except String (List Part)
  | [] => Except.ok []
  | part :: rest =>
    match classifyPart part with
    | .ok p =>
      match classifyAll rest with
      | .ok ps => Except.ok (p :: ps)
      | .error m => Except.error m
    | .error m => Except.error m

/-- Model of `parse_key(key)`: strip the key, reject it if it is empty or
starts with `[` (returning the empty path), otherwise classify every regex
match; a `ValueError` from `int()` propagates as an error. -/
def parse_key (key : String) : Except String (List Part) :=
  let k := pyStrip key.data
  if k.isEmpty || k.head? = some '[' then Except.ok []
  else classifyAll (findall k)

/-- Python dict lookup on an insertion-ordered association list. -/
def dictGet : List (String × Node) → String → Option Node
  | [], _ => none
  | (k, v) :: rest, s => if k = s then some v else dictGet rest s

/-- Python dict assignment: updating an existing key keeps its position,
a new key is appended at the end. -/
def dictSet : List (String × Node) → String → Node → List (String × Node)
  | [], s, v => [(s, v)]
  | (k, w) :: rest, s, v =>
    if k = s then (s, v) :: rest else (k, w) :: dictSet rest s v

/-- The loop `while len(ref) <= k: ref.append(None)` — pad with `None` placeholders up
to length `max (l.length) (k+1)`. -/
def growTo (l : List Node) (k : Nat) : List Node :=
  l ++ List.replicate (k + 1 - l.length) Node.none_

/-- Is this node Python `None`?  (`ref[part] is None`). -/
def Node.isNone : Node → Bool
  | .none_ => true
  | _ => false

/-- Python `isinstance(x, (dict, list))`. -/
def Node.isContainer : Node → Bool
  | .dict _ => true
  | .list _ => true
  | _ => false

/-- Python `{} if isinstance(next_part, str) else []` — the fresh intermediate
container whose shape is implied by the next path part. -/
def freshFor : Option Part → Node
  | some (.name _) => Node.dict []
  | _ => Node.list []

/-- The loop of `insert`, walking the parsed key through the tree.  Python's
in-place mutation of the current reference becomes rebuilding the node on the
way out.  Every Python statement that raises is an `Except.error`:
the two `assert isinstance(...)` statements, and the `TypeError` that string
indexing raises when the current node is not a dict in the non-last
field-name branch.  (In that branch Python evaluates `part not in ref` first,
which does not raise for lists or strings, and then fails on
`ref[part] = ...` or `ref = ref[part]`; for other scalars the membership test
itself raises.  Either way the insertion errors without producing a tree, so
one error case is faithful.) -/
def insertGo : List Part → Node → Node → Except String Node
  | [], _, ref => Except.ok ref
  | .append :: rest, value, ref =>
    match ref with
    | .list l =>
      match rest with
      | [] => Except.ok (Node.list (l ++ [value]))
      | _ :: _ =>
        match insertGo rest value (freshFor rest.head?) with
        | .ok e => Except.ok (Node.list (l ++ [e]))
        | .error msg => Except.error msg
    | _ => Except.error "assert isinstance(ref, list)"
  | .idx k :: rest, value, ref =>
    match ref with
    | .list l =>
      let l2 := growTo l k
      match rest with
      | [] => Except.ok (Node.list (l2.set k value))
      | _ :: _ =>
        let cur := l2.getD k Node.none_
        let start := if cur.isNone then freshFor rest.head? else cur
        match insertGo rest value start with
        | .ok e => Except.ok (Node.list (l2.set k e))
        | .error msg => Except.error msg
    | _ => Except.error "assert isinstance(ref, list)"
  | .name s :: rest, value, ref =>
    match rest with
    | [] =>
      match ref with
      | .dict d => Except.ok (Node.dict (dictSet d s value))
      | _ => Except.error "assert isinstance(ref, dict)"
    | _ :: _ =>
      match ref with
      | .dict d =>
        let start :=
          match dictGet d s with
          | some w => if w.isContainer then w else freshFor rest.head?
          | none => freshFor rest.head?
        match insertGo rest value start with
        | .ok e => Except.ok (Node.dict (dictSet d s e))
        | .error msg => Except.error msg
      | _ => Except.error "TypeError: string key into non-dict"

/-- Model of `insert(parsed_key, value, target)`. -/
def insert (parsed_key : List Part) (value : Node) (target : Node) :
    Except String Node :=
  insertGo parsed_key value target

/-- The loop `for value in values: insert(parsed_key, value, result)`. -/
def insertValues (pk : List Part) : List Node → Node → Except String Node
  | [], res => Except.ok res
  | v :: vs, res =>
    match insert pk v res with
    | .ok r => insertValues pk vs r
    | .error msg => Except.error msg

/-- Normalization `if not isinstance(values, list) or not values: values = [values]` —
anything that is not a non-empty list is wrapped in a singleton list
(in particular the empty list itself is wrapped). -/
def normVals : Node → List Node
  | .list (x :: xs) => x :: xs
  | v => [v]

/-- The entry loop of `parse`: a `ValueError` raised by `parse_key`
propagates out of `parse` before any insertion for that entry. -/
def parseGo : List (String × Node) → Node → Except String Node
  | [], res => Except.ok res
  | (key, v) :: rest, res =>
    match parse_key key with
    | .error msg => Except.error msg
    | .ok pk =>
      match insertValues pk (normVals v) res with
      | .ok r => parseGo rest r
      | .error msg => Except.error msg

/-- Model of `parse(reqdata)`: build the nested tree from the flat entry list.
(The early `return {}` for an empty input coincides with running the loop on
no entries.) -/
def parse (reqdata : List (String × Node)) : Except String Node :=
  parseGo reqdata (Node.dict [])

/-! Spec-side vocabulary used to state the claims. -/

/-- A path whose first segment (if any) is a field name. -/
def headIsField : List Part → Bool
  | [] => true
  | .name _ :: _ => true
  | _ => false

/-- The effect on the backing list of one last-segment `Index` write:
grow with `None` placeholders, then set position `k`. -/
def idxStep (l : List Node) (w : Nat × Node) : List Node :=
  (growTo l w.1).set w.1 w.2

/-- Run `insert` once per `(index, value)` pair at the path `f[index]`. -/
def applyIdxWrites (f : String) : List (Nat × Node) → Node → Except String Node
  | [], t => Except.ok t
  | w :: ws, t =>
    match insert [Part.name f, Part.idx w.1] w.2 t with
    | .ok r => applyIdxWrites f ws r
    | .error m => Except.error m

/-- One plus the highest index of a write list (0 when empty). -/
def maxLen (ws : List (Nat × Node)) : Nat :=
  ws.foldr (fun w m => max (w.1 + 1) m) 0

/-- An existing dict entry that is a container of the wrong shape for the
next path part: a list where the next part implies a mapping, or a dict where
the next part implies a sequence. -/
def wrongShape (p : Part) (w : Node) : Bool :=
  match p, w with
  | .name _, .list _ => true
  | .idx _, .dict _ => true
  | .append, .dict _ => true
  | _, _ => false

/-- Pairwise compatibility of two parsed keys, the formalization of the C10
contract: walking both paths from the root, a tree location may not be
required to be a mapping by one path and a sequence by the other, nor be
written as a scalar by one path and traversed as a container by the other.
An `Append` segment is treated as possibly aliasing any index of the same
sequence (its landing position depends on insertion order), while distinct
field names and distinct indices lead to disjoint subtrees and are always
compatible. -/
def compat : List Part → List Part → Bool
  | [], _ => true
  | _ :: _, [] => true
  | .name s :: p, .name t :: q =>
    if s = t then (p.isEmpty && q.isEmpty) || (!p.isEmpty && !q.isEmpty && compat p q)
    else true
  | .name _ :: _, .idx _ :: _ => false
  | .name _ :: _, .append :: _ => false
  | .idx _ :: _, .name _ :: _ => false
  | .append :: _, .name _ :: _ => false
  | .idx k :: p, .idx j :: q =>
    if k = j then (p.isEmpty && q.isEmpty) || (!p.isEmpty && !q.isEmpty && compat p q)
    else true
  | .idx _ :: p, .append :: q => p.isEmpty || (!q.isEmpty && compat p q)
  | .append :: p, .idx _ :: q => q.isEmpty || (!p.isEmpty && compat p q)
  | .append :: _, .append :: _ => true

/-- The predicate `insOK p N` says that running `insert` with parsed key `p` on the tree
node `N` cannot hit an error: at every level the node has the container shape
the current part requires, and wherever the walk descends into an existing
non-placeholder node, that node recursively supports the rest of the path.
(Descents into freshly created containers are always safe.) -/
def insOK : List Part → Node → Bool
  | [], _ => true
  | .name _ :: [], .dict _ => true
  | .name s :: p :: rest, .dict d =>
    (match dictGet d s with
     | some w => !w.isContainer || insOK (p :: rest) w
     | none => true)
  | .name _ :: _, _ => false
  | .idx _ :: [], .list _ => true
  | .idx k :: p :: rest, .list l =>
    ((growTo l k).getD k Node.none_).isNone
      || insOK (p :: rest) ((growTo l k).getD k Node.none_)
  | .idx _ :: _, _ => false
  | .append :: _, .list _ => true
  | .append :: _, _ => false

/-- The tokenized path of a key, defaulting to the empty path when the
tokenizer raises (used only under hypotheses that rule the error case out). -/
def pathOrNil (key : String) : List Part :=
  match parse_key key with
  | .ok pk => pk
  | .error _ => []

/-- The flat list of `(parsed key, value)` insertions that `parse` performs,
in order (meaningful when every key tokenizes without error). -/
def flattenReq (reqdata : List (String × Node)) : List (List Part × Node) :=
  reqdata.flatMap (fun e => (normVals e.2).map (fun v => (pathOrNil e.1, v)))

/-- A key that tokenizes without error to a path that is empty or begins
with a `Field` segment. -/
def keyOK (key : String) : Bool :=
  match parse_key key with
  | .ok pk => headIsField pk
  | .error _ => false

/-- Two keys that both tokenize without error to compatible paths. -/
def keysCompat (k1 k2 : String) : Bool :=
  match parse_key k1, parse_key k2 with
  | .ok p, .ok q => compat p q
  | _, _ => false

/-- Pairwise exchangeability of two parsed keys, the class of C7: both paths
use only `Field` and `Index` segments at shared locations (an `Append`
anywhere on the shared spine is rejected), they diverge at some field name or
index before either ends, and in particular neither is a prefix of the other
(no overlapping `Field`-terminated paths, no duplicate targets).  Inserting
two such paths in either order yields the same tree up to mapping insertion
order.  An empty path is a no-op and is exchangeable with anything. -/
def pe : List Part → List Part → Bool
  | [], _ => true
  | _ :: _, [] => true
  | .name s :: p, .name t :: q =>
    if s = t then !p.isEmpty && !q.isEmpty && pe p q
    else true
  | .idx k :: p, .idx j :: q =>
    if k = j then !p.isEmpty && !q.isEmpty && pe p q
    else true
  | _, _ => false

/-- An observation-path segment: a mapping field or a sequence position. -/
inductive Seg where
  | fld (s : String)
  | pos (n : Nat)
deriving DecidableEq, Repr

/-- What is observable at a tree location: the exact scalar, or the kind of
container (with a sequence's length; a mapping's keys are observable through
deeper `fld` queries). -/
inductive Atom where
  | vnone
  | vstr (s : String)
  | vint (n : Int)
  | vdict
  | vlist (len : Nat)
deriving DecidableEq, Repr

/-- The atom of a node's root. -/
def atomOf : Node → Atom
  | .none_ => Atom.vnone
  | .str s => Atom.vstr s
  | .int n => Atom.vint n
  | .dict _ => Atom.vdict
  | .list l => Atom.vlist l.length

/-- Observe a tree at a path of field names and positions.  Two trees with
the same observations at every path are structurally identical up to the
insertion order of mapping entries (which the spec declares irrelevant). -/
def viewAt : List Seg → Node → Option Atom
  | [], n => some (atomOf n)
  | .fld s :: ap, .dict d =>
    (match dictGet d s with
     | some w => viewAt ap w
     | none => none)
  | .pos i :: ap, .list l =>
    (match l[i]? with
     | some w => viewAt ap w
     | none => none)
  | _ :: _, _ => none

/-- Structural identity up to mapping insertion order: equal observations at
every path. -/
def VEq (N M : Node) : Prop :=
  ∀ ap, viewAt ap N = viewAt ap M

/-- The effect of `insert` at a `Field` segment on the addressed dict entry,
as a function of the rest of the path, the value, and the current entry
(`dictGet d s`): the written value when last, otherwise the recursive insert
into the existing container or a fresh one. -/
def nameEffect (rest : List Part) (v : Node) (g : Option Node) :
    Except String Node :=
  match rest with
  | [] => Except.ok v
  | r :: rs =>
    insertGo (r :: rs) v
      (match g with
       | some w => if w.isContainer then w else freshFor (some r)
       | none => freshFor (some r))

/-- The effect of `insert` at an `Index` segment on the addressed slot, as a
function of the rest of the path, the value, and the current slot content
(after padding). -/
def idxEffect (rest : List Part) (v cur : Node) : Except String Node :=
  match rest with
  | [] => Except.ok v
  | r :: rs =>
    insertGo (r :: rs) v (if cur.isNone then freshFor (some r) else cur)

/-- The element appended by `insert` at an `Append` segment. -/
def appendEffect (rest : List Part) (v : Node) : Except String Node :=
  match rest with
  | [] => Except.ok v
  | r :: rs => insertGo (r :: rs) v (freshFor (some r))

/-- Run a flat list of `(parsed key, value)` insertions. -/
def foldIns : List (List Part × Node) → Node → Except String Node
  | [], t => Except.ok t
  | (p, v) :: rest, t =>
    match insertGo p v t with
    | .ok r => foldIns rest r
    | .error m => Except.error m

/-! Helper lemmas. -/

theorem insertValues_nil_path (vs : List Node) (res : Node) :
    insertValues [] vs res = Except.ok res := by
  induction vs with
  | nil => rfl
  | cons v vs ih => simpa [insertValues, insert, insertGo] using ih

theorem insertValues_singleton (pk : List Part) (v : Node) (t : Node) :
    insertValues pk [v] t = insert pk v t := by
  cases h : insert pk v t <;> simp [insertValues, h]

theorem parseGo_singleton (key : String) (v : Node) (t : Node) (pk : List Part)
    (hk : parse_key key = Except.ok pk) :
    parseGo [(key, v)] t = insertValues pk (normVals v) t := by
  cases h : insertValues pk (normVals v) t <;> simp [parseGo, hk, h]

theorem dictGet_singleton (f : String) (x : Node) : dictGet [(f, x)] f = some x := by
  simp [dictGet]

theorem dictSet_singleton (f : String) (x y : Node) :
    dictSet [(f, x)] f y = [(f, y)] := by
  simp [dictSet]

theorem dictGet_dictSet_self (d : List (String × Node)) (s : String) (v : Node) :
    dictGet (dictSet d s v) s = some v := by
  induction d with
  | nil => simp [dictGet, dictSet]
  | cons kv rest ih =>
    by_cases h : kv.1 = s
    · simp [dictSet, dictGet, h]
    · simp [dictSet, dictGet, h, ih]

theorem dictGet_dictSet_ne (d : List (String × Node)) (s t : String) (v : Node)
    (h : t ≠ s) : dictGet (dictSet d s v) t = dictGet d t := by
  have hst : s ≠ t := Ne.symm h
  induction d with
  | nil => simp [dictGet, dictSet, hst]
  | cons kv rest ih =>
    obtain ⟨k, w⟩ := kv
    by_cases hk : k = s
    · subst hk
      simp [dictSet, dictGet, hst]
    · by_cases ht : k = t
      · subst ht
        simp [dictSet, dictGet, hk]
      · simp [dictSet, dictGet, hk, ht, ih]

theorem length_growTo (l : List Node) (k : Nat) :
    (growTo l k).length = max l.length (k + 1) := by
  simp [growTo]
  omega

theorem getD_growTo_self (l : List Node) (k : Nat) :
    (growTo l k).getD k Node.none_ = l.getD k Node.none_ := by
  by_cases h : k < l.length
  · simp [growTo, List.getD_eq_getElem?_getD, List.getElem?_append_left h]
  · have h1 : l.length ≤ k := Nat.le_of_not_lt h
    rw [List.getD_eq_getElem?_getD, List.getD_eq_getElem?_getD,
      List.getElem?_eq_none h1]
    rw [show (growTo l k) = l ++ List.replicate (k + 1 - l.length) Node.none_ from rfl,
      List.getElem?_append_right h1, List.getElem?_replicate]
    have h2 : k - l.length < k + 1 - l.length := by omega
    simp [h2]

theorem getD_idxStep_self (l : List Node) (k : Nat) (v : Node) :
    (idxStep l (k, v)).getD k Node.none_ = v := by
  have hk : k < (growTo l k).length := by rw [length_growTo]; omega
  simp [idxStep, List.getD_eq_getElem?_getD, List.getElem?_set_self hk]

theorem getD_idxStep_ne (l : List Node) (k : Nat) (v : Node) (j : Nat) (h : j ≠ k) :
    (idxStep l (k, v)).getD j Node.none_ = l.getD j Node.none_ := by
  rw [idxStep, List.getD_eq_getElem?_getD, List.getElem?_set_ne (fun hh => h hh.symm)]
  by_cases hj : j < l.length
  · rw [show (growTo l k) = l ++ List.replicate (k + 1 - l.length) Node.none_ from rfl,
      List.getElem?_append_left hj, List.getD_eq_getElem?_getD]
  · have h1 : l.length ≤ j := Nat.le_of_not_lt hj
    rw [show (growTo l k) = l ++ List.replicate (k + 1 - l.length) Node.none_ from rfl,
      List.getElem?_append_right h1, List.getElem?_replicate,
      List.getD_eq_getElem?_getD, List.getElem?_eq_none h1]
    by_cases h2 : j - l.length < k + 1 - l.length <;> simp [h2]

theorem length_idxStep (l : List Node) (k : Nat) (v : Node) :
    (idxStep l (k, v)).length = max l.length (k + 1) := by
  simp [idxStep, length_growTo]

/-- C8: a key whose trimmed form is empty or begins with `[` tokenizes to
the empty path. -/
theorem c8_reject_empty_or_bracket (key : String)
    (h : pyStrip key.data = [] ∨ (pyStrip key.data).head? = some '[') :
    parse_key key = Except.ok [] := by
  rcases h with h | h <;> simp [parse_key, h]

/-- Witness for C8 at the two inputs named by the claim:
`tokenize("") = []` and `tokenize("[no_root]") = []`. -/
theorem c8_reject_empty_or_bracket_witness :
    parse_key "" = Except.ok [] ∧ parse_key "[no_root]" = Except.ok [] :=
  ⟨c8_reject_empty_or_bracket "" (Or.inl (by decide)),
   c8_reject_empty_or_bracket "[no_root]" (Or.inr (by decide))⟩

/-- C3 helper: skipping an entry whose key tokenizes to the empty path does
not change the state threading of `parseGo`. -/
theorem parseGo_skip_empty (key : String) (v : Node)
    (hk : parse_key key = Except.ok [])
    (pre post : List (String × Node)) (t : Node) :
    parseGo (pre ++ (key, v) :: post) t = parseGo (pre ++ post) t := by
  induction pre generalizing t with
  | nil =>
    simp only [List.nil_append, parseGo, hk, insertValues_nil_path]
  | cons e rest ih =>
    obtain ⟨k0, v0⟩ := e
    simp only [List.cons_append, parseGo]
    cases hpk : parse_key k0 with
    | error m => rfl
    | ok pk =>
      dsimp only
      cases h : insertValues pk (normVals v0) t with
      | ok r => exact ih r
      | error m => rfl

/-- C3: an entry whose key tokenizes to the empty path (for example an empty
or whitespace-only key, or a key starting with `[`) contributes nothing and
raises nothing: `parse` returns exactly what it returns on the input with
that entry removed. -/
theorem c3_empty_path_entries_are_skipped (pre post : List (String × Node))
    (key : String) (v : Node) (hk : parse_key key = Except.ok []) :
    parse (pre ++ (key, v) :: post) = parse (pre ++ post) :=
  parseGo_skip_empty key v hk pre post (Node.dict [])

/-- Witness for C3: dropping the malformed entry `("[x]", "z")` leaves the
parse of `{"a": ["1"], "[x]": ["z"]}` unchanged. -/
theorem c3_empty_path_entries_are_skipped_witness :
    parse [("a", Node.list [Node.str "1"]), ("[x]", Node.str "z")]
      = parse [("a", Node.list [Node.str "1"])] :=
  c3_empty_path_entries_are_skipped [("a", Node.list [Node.str "1"])] []
    "[x]" (Node.str "z") rfl

/-- C5: a key whose value is the empty list is normalized to the one-element
list containing the empty list, so processing such an entry is exactly one
insertion whose inserted value is the empty list itself (for any key whose
tokenization returns a path); in particular `parse({"foo": []}) = {"foo":
[]}` with the empty list stored as a scalar. -/
theorem c5_empty_list_value_wrapped :
    (∀ (key : String) (t : Node) (pk : List Part),
      parse_key key = Except.ok pk →
      parseGo [(key, Node.list [])] t = insert pk (Node.list []) t)
    ∧ parse [("foo", Node.list [])]
        = Except.ok (Node.dict [("foo", Node.list [])]) := by
  constructor
  · intro key t pk hk
    rw [parseGo_singleton key _ t pk hk]
    exact insertValues_singleton pk (Node.list []) t
  · rfl

/-- Witness for C5 at the claim's own example key. -/
theorem c5_empty_list_value_wrapped_witness :
    parseGo [("foo", Node.list [])] (Node.dict [])
      = insert [Part.name "foo"] (Node.list []) (Node.dict []) :=
  c5_empty_list_value_wrapped.1 "foo" (Node.dict []) [Part.name "foo"] rfl

/-- C6 helper: appending `vs` one by one at path `f[]` into the tree
`{f: l}` extends the list `l` by `vs`, in order. -/
theorem insertValues_append_path (f : String) (vs : List Node) (l : List Node) :
    insertValues [Part.name f, Part.append] vs (Node.dict [(f, Node.list l)])
      = Except.ok (Node.dict [(f, Node.list (l ++ vs))]) := by
  induction vs generalizing l with
  | nil => simp [insertValues]
  | cons v vs ih =>
    have hstep : insert [Part.name f, Part.append] v (Node.dict [(f, Node.list l)])
        = Except.ok (Node.dict [(f, Node.list (l ++ [v]))]) := by
      simp [insert, insertGo, dictGet_singleton, Node.isContainer, dictSet_singleton]
    simp only [insertValues, hstep, ih, List.append_assoc, List.singleton_append]

/-- C6: a path ending in an `Append` segment with an n-element value list
fans out into n sequential insertions producing n distinct elements in input
order; in particular `parse({"items[]": ["p","q","r"]}) = {"items":
["p","q","r"]}`. -/
theorem c6_append_fanout (f : String) (v : Node) (vs : List Node) :
    insertValues [Part.name f, Part.append] (v :: vs) (Node.dict [])
        = Except.ok (Node.dict [(f, Node.list (v :: vs))])
    ∧ parse [("items[]", Node.list [Node.str "p", Node.str "q", Node.str "r"])]
        = Except.ok (Node.dict
            [("items", Node.list [Node.str "p", Node.str "q", Node.str "r"])]) := by
  constructor
  · have hfirst : insert [Part.name f, Part.append] v (Node.dict [])
        = Except.ok (Node.dict [(f, Node.list [v])]) := by
      simp [insert, insertGo, dictGet, freshFor, dictSet]
    have := insertValues_append_path f vs [v]
    simp only [insertValues, hfirst, this, List.singleton_append]
  · rfl

/-- C1 counterexample: the claim says that a non-last `Field` segment whose
existing entry is a container of the wrong shape is reset to a fresh
container of the correct shape.  On `{"a[]": ["v"], "a[b]": ["w"]}` the entry
`"a"` is a list when `a[b]` needs a mapping; a reset would give
`{"a": {"b": "w"}}`, but the code descends into the list and fails the
`assert isinstance(ref, dict)`. -/
theorem c1_counterexample :
    parse [("a[]", Node.list [Node.str "v"]), ("a[b]", Node.list [Node.str "w"])]
        = Except.error "assert isinstance(ref, dict)"
    ∧ parse [("a[]", Node.list [Node.str "v"]), ("a[b]", Node.list [Node.str "w"])]
        ≠ Except.ok (Node.dict [("a", Node.dict [("b", Node.str "w")])]) := by
  have h1 : parse [("a[]", Node.list [Node.str "v"]), ("a[b]", Node.list [Node.str "w"])]
      = Except.error "assert isinstance(ref, dict)" := rfl
  exact ⟨h1, by rw [h1]; intro h; exact Except.noConfusion h⟩

/-- C1 amended: at a non-last `Field` segment whose existing entry is a
container of the wrong shape (a list where the next segment implies a
mapping, or a dict where the next segment implies a sequence), `insert` does
NOT reset the entry: it descends into the wrong-shaped container unchanged
and the insertion then fails with an error at the next segment. -/
theorem c1_amended_wrong_shape_errors (d : List (String × Node)) (s : String)
    (p : Part) (rest2 : List Part) (v w : Node)
    (hget : dictGet d s = some w) (hw : wrongShape p w = true) :
    ∃ msg, insertGo (Part.name s :: p :: rest2) v (Node.dict d) = Except.error msg := by
  have hcont : w.isContainer = true := by
    cases p <;> cases w <;> simp_all [wrongShape, Node.isContainer]
  have hinner : ∃ msg, insertGo (p :: rest2) v w = Except.error msg := by
    cases p with
    | name s2 =>
      cases w with
      | list l =>
        cases rest2 with
        | nil => exact ⟨_, rfl⟩
        | cons r rs => exact ⟨_, rfl⟩
      | none_ => simp [wrongShape] at hw
      | str _ => simp [wrongShape] at hw
      | int _ => simp [wrongShape] at hw
      | dict _ => simp [wrongShape] at hw
    | idx k =>
      cases w with
      | dict d2 => exact ⟨_, rfl⟩
      | none_ => simp [wrongShape] at hw
      | str _ => simp [wrongShape] at hw
      | int _ => simp [wrongShape] at hw
      | list _ => simp [wrongShape] at hw
    | append =>
      cases w with
      | dict d2 => exact ⟨_, rfl⟩
      | none_ => simp [wrongShape] at hw
      | str _ => simp [wrongShape] at hw
      | int _ => simp [wrongShape] at hw
      | list _ => simp [wrongShape] at hw
  obtain ⟨msg, hmsg⟩ := hinner
  exact ⟨msg, by simp [insertGo, hget, hcont, hmsg]⟩

/-- Witness for the amended C1: with `{"a": ["v"]}` in place, inserting at
the parsed key of `"a[b]"` errors instead of resetting. -/
theorem c1_amended_wrong_shape_errors_witness :
    ∃ msg, insertGo [Part.name "a", Part.name "b"] (Node.str "w")
      (Node.dict [("a", Node.list [Node.str "v"])]) = Except.error msg :=
  c1_amended_wrong_shape_errors [("a", Node.list [Node.str "v"])] "a"
    (Part.name "b") [] (Node.str "w") (Node.list [Node.str "v"])
    (by simp [dictGet]) (by decide)

/-- C2 counterexample: the claim says every tokenized path is empty or starts
with a `Field` segment.  The key `"1[0]"` is not rejected (it is non-empty
and does not start with `[`), the unmatched `1` is skipped by the scanner,
and the result is the non-empty path `[Index 0]`. -/
theorem c2_counterexample :
    parse_key "1[0]" = Except.ok [Part.idx 0]
    ∧ ¬ (parse_key "1[0]" = Except.ok []
          ∨ ∃ s tl, parse_key "1[0]" = Except.ok (Part.name s :: tl)) := by
  have h1 : parse_key "1[0]" = Except.ok [Part.idx 0] := rfl
  refine ⟨h1, ?_⟩
  rintro (h | ⟨s, tl, h⟩)
  · rw [h1] at h
    injection h with h2
    exact List.noConfusion h2
  · rw [h1] at h
    injection h with h2
    injection h2 with h3 h4
    exact Part.noConfusion h3

/-- C2 amended: a key whose trimmed form begins with a character of the
name-start class tokenizes, whenever tokenization completes without a
`ValueError`, to a non-empty path beginning with a `Field` segment.  (Keys
whose trimmed form begins with an unrecognized character followed by a
bracket group can instead produce a path beginning with an `Index` or
`Append` segment, as `"1[0]"` shows; and a bracketed name passing `isdigit()`
with a non-decimal digit character makes the tokenizer raise, so no path is
returned at all.) -/
theorem c2_amended_name_start_gives_field_head (key : String) (c : Char)
    (cs : List Char) (path : List Part) (hk : pyStrip key.data = c :: cs)
    (hc : isNameStart c = true) (hok : parse_key key = Except.ok path) :
    ∃ s tl, path = Part.name s :: tl := by
  have hne : c ≠ '[' := by
    intro h
    rw [h] at hc
    exact absurd hc (by decide)
  have hclass : classifyPart (c :: cs.takeWhile isNameCont)
      = Except.ok (Part.name (String.mk (c :: cs.takeWhile isNameCont))) := by
    simp [classifyPart, hne]
  rw [parse_key] at hok
  simp only [hk, List.isEmpty_cons, List.head?_cons, Bool.false_or] at hok
  rw [if_neg (by simp [hne])] at hok
  rw [show findall (c :: cs)
      = (c :: cs.takeWhile isNameCont)
        :: findallF cs.length (cs.dropWhile isNameCont) from by
    simp [findall, findallF, matchAt, hc]] at hok
  rw [classifyAll, hclass] at hok
  cases hrest : classifyAll (findallF cs.length (cs.dropWhile isNameCont)) with
  | error m => rw [hrest] at hok; cases hok
  | ok ps =>
    rw [hrest] at hok
    injection hok with h2
    exact ⟨_, ps, h2.symm⟩

/-- Witness for the amended C2 at the key `"user[0]"`. -/
theorem c2_amended_name_start_gives_field_head_witness :
    ∃ s tl, [Part.name "user", Part.idx 0] = Part.name s :: tl :=
  c2_amended_name_start_gives_field_head "user[0]" 'u'
    ['s', 'e', 'r', '[', '0', ']'] [Part.name "user", Part.idx 0]
    (by decide) (by decide) rfl

theorem dropWhile_eq_self_of_all_false {α : Type} (p : α → Bool) (l : List α)
    (h : ∀ x ∈ l, p x = false) : l.dropWhile p = l := by
  cases l with
  | nil => rfl
  | cons a l => simp [List.dropWhile_cons, h a (by simp)]

theorem takeWhile_eq_self_of_all_true {α : Type} (p : α → Bool) (l : List α)
    (h : ∀ x ∈ l, p x = true) : l.takeWhile p = l := by
  induction l with
  | nil => rfl
  | cons a l ih =>
    rw [List.takeWhile_cons_of_pos (h a (by simp)),
      ih (fun x hx => h x (by simp [hx]))]

theorem dropWhile_eq_nil_of_all_true {α : Type} (p : α → Bool) (l : List α)
    (h : ∀ x ∈ l, p x = true) : l.dropWhile p = [] := by
  induction l with
  | nil => rfl
  | cons a l ih =>
    rw [List.dropWhile_cons_of_pos (h a (by simp)),
      ih (fun x hx => h x (by simp [hx]))]

theorem findallF_nil (fuel : Nat) : findallF fuel [] = [] := by
  cases fuel <;> rfl

theorem pyStrip_eq_self_of_no_space (l : List Char)
    (h : ∀ x ∈ l, pyIsSpace x = false) : pyStrip l = l := by
  rw [pyStrip, dropWhile_eq_self_of_all_false pyIsSpace l h,
    dropWhile_eq_self_of_all_false pyIsSpace l.reverse
      (fun x hx => h x (List.mem_reverse.mp hx)),
    List.reverse_reverse]

/-- C9: a key that is a single bare name (name-start character followed by
name-continuation characters, none of them trimmable whitespace) containing
a literal dot tokenizes to exactly one `Field` segment carrying the whole
name, dot included — the dot is never treated as a separator. -/
theorem c9_dot_kept_in_field (c : Char) (cs : List Char)
    (h1 : isNameStart c = true)
    (h2 : ∀ x ∈ cs, isNameCont x = true)
    (h3 : pyIsSpace c = false)
    (h4 : ∀ x ∈ cs, pyIsSpace x = false)
    (_h5 : '.' ∈ cs) :
    parse_key (String.mk (c :: cs))
      = Except.ok [Part.name (String.mk (c :: cs))] := by
  have hne : c ≠ '[' := by
    intro h
    rw [h] at h1
    exact absurd h1 (by decide)
  have hstrip : pyStrip (c :: cs) = c :: cs :=
    pyStrip_eq_self_of_no_space (c :: cs) (by
      intro x hx
      rcases List.mem_cons.mp hx with h | h
      · rw [h]; exact h3
      · exact h4 x h)
  have htake : cs.takeWhile isNameCont = cs := takeWhile_eq_self_of_all_true _ cs h2
  have hdrop : cs.dropWhile isNameCont = [] := dropWhile_eq_nil_of_all_true _ cs h2
  have hclass : classifyPart (c :: cs)
      = Except.ok (Part.name (String.mk (c :: cs))) := by
    simp [classifyPart, hne]
  simp only [parse_key, String.mk, hstrip, List.isEmpty_cons, List.head?_cons,
    findall, List.length_cons, findallF, matchAt, h1, if_true, Bool.false_or,
    htake, hdrop, findallF_nil]
  rw [if_neg]
  · simp [classifyAll, hclass]
  · simp [hne]

/-- Witness for C9 at the claim's own example `"pre.fix"`. -/
theorem c9_dot_kept_in_field_witness :
    parse_key (String.mk ['p', 'r', 'e', '.', 'f', 'i', 'x'])
      = Except.ok [Part.name (String.mk ['p', 'r', 'e', '.', 'f', 'i', 'x'])] :=
  c9_dot_kept_in_field 'p' ['r', 'e', '.', 'f', 'i', 'x']
    (by decide) (by decide) (by decide) (by decide) (by decide)

theorem insert_idx_last_step (f : String) (k : Nat) (v : Node) (l : List Node) :
    insert [Part.name f, Part.idx k] v (Node.dict [(f, Node.list l)])
      = Except.ok (Node.dict [(f, Node.list (idxStep l (k, v)))]) := by
  simp [insert, insertGo, dictGet_singleton, Node.isContainer, dictSet_singleton,
    idxStep, growTo]

theorem insert_idx_last_first (f : String) (k : Nat) (v : Node) :
    insert [Part.name f, Part.idx k] v (Node.dict [])
      = Except.ok (Node.dict [(f, Node.list (idxStep [] (k, v)))]) := by
  simp [insert, insertGo, dictGet, freshFor, dictSet, idxStep, growTo]

theorem applyIdxWrites_run (f : String) (ws : List (Nat × Node)) (l : List Node) :
    applyIdxWrites f ws (Node.dict [(f, Node.list l)])
      = Except.ok (Node.dict [(f, Node.list (ws.foldl idxStep l))]) := by
  induction ws generalizing l with
  | nil => rfl
  | cons w ws ih =>
    obtain ⟨k, v⟩ := w
    simp only [applyIdxWrites, insert_idx_last_step, List.foldl_cons]
    exact ih (idxStep l (k, v))

theorem foldl_idxStep_getD_not_written (ws : List (Nat × Node)) (l : List Node)
    (j : Nat) (h : j ∉ ws.map Prod.fst) :
    (ws.foldl idxStep l).getD j Node.none_ = l.getD j Node.none_ := by
  induction ws generalizing l with
  | nil => rfl
  | cons w ws ih =>
    obtain ⟨k, v⟩ := w
    have hj : j ≠ k := by
      intro hh
      exact h (by simp [hh])
    simp only [List.foldl_cons]
    rw [ih (idxStep l (k, v)) (fun hh => h (by simp at hh ⊢; exact Or.inr hh)),
      getD_idxStep_ne l k v j hj]

theorem foldl_idxStep_length (ws : List (Nat × Node)) (l : List Node) :
    (ws.foldl idxStep l).length = max l.length (maxLen ws) := by
  induction ws generalizing l with
  | nil => simp [maxLen]
  | cons w ws ih =>
    obtain ⟨k, v⟩ := w
    simp only [List.foldl_cons, maxLen, List.foldr_cons]
    rw [ih (idxStep l (k, v)), length_idxStep]
    have : maxLen ws = ws.foldr (fun w m => max (w.1 + 1) m) 0 := rfl
    omega

/-- C4: a sequence built only by last-segment `Index` writes has length equal
to one plus the highest index ever written, and every position skipped by the
written indices holds the explicit `None` placeholder; in particular
`parse({"arr[0]": ["x"], "arr[1]": ["y"], "arr[5]": ["z"]})` is
`{"arr": ["x", "y", None, None, None, "z"]}`. -/
theorem c4_sparse_fill (f : String) (w : Nat × Node) (ws : List (Nat × Node)) :
    (∃ l, applyIdxWrites f (w :: ws) (Node.dict [])
        = Except.ok (Node.dict [(f, Node.list l)])
      ∧ l.length = maxLen (w :: ws)
      ∧ ∀ j, j < l.length → j ∉ (w :: ws).map Prod.fst
          → l.getD j Node.none_ = Node.none_)
    ∧ parse [("arr[0]", Node.list [Node.str "x"]),
             ("arr[1]", Node.list [Node.str "y"]),
             ("arr[5]", Node.list [Node.str "z"])]
        = Except.ok (Node.dict [("arr", Node.list
            [Node.str "x", Node.str "y", Node.none_, Node.none_, Node.none_,
             Node.str "z"])]) := by
  constructor
  · obtain ⟨k, v⟩ := w
    refine ⟨ws.foldl idxStep (idxStep [] (k, v)), ?_, ?_, ?_⟩
    · simp only [applyIdxWrites, insert_idx_last_first]
      exact applyIdxWrites_run f ws (idxStep [] (k, v))
    · rw [foldl_idxStep_length, length_idxStep]
      simp only [maxLen, List.foldr_cons]
      have : maxLen ws = ws.foldr (fun w m => max (w.1 + 1) m) 0 := rfl
      simp only [List.length_nil]
      omega
    · intro j hlt hnotin
      have hj : j ≠ k := by
        intro hh
        exact hnotin (by simp [hh])
      have h2 : j ∉ ws.map Prod.fst := by
        intro hh
        exact hnotin (by simp at hh ⊢; exact Or.inr hh)
      rw [foldl_idxStep_getD_not_written ws _ j h2, getD_idxStep_ne [] k v j hj]
      rfl
  · rfl

theorem getD_nil_node (k : Nat) : ([] : List Node).getD k Node.none_ = Node.none_ := by
  simp [List.getD_eq_getElem?_getD]

theorem ext_of_length_getD (l₁ l₂ : List Node) (hlen : l₁.length = l₂.length)
    (h : ∀ j, l₁.getD j Node.none_ = l₂.getD j Node.none_) : l₁ = l₂ := by
  apply List.ext_getElem?
  intro n
  by_cases hn : n < l₁.length
  · have hn' : n < l₂.length := hlen ▸ hn
    have := h n
    rw [List.getD_eq_getElem?_getD, List.getD_eq_getElem?_getD,
      List.getElem?_eq_getElem hn, List.getElem?_eq_getElem hn'] at this
    simp only [Option.getD_some] at this
    rw [List.getElem?_eq_getElem hn, List.getElem?_eq_getElem hn', this]
  · rw [List.getElem?_eq_none (Nat.le_of_not_lt hn),
      List.getElem?_eq_none (hlen ▸ Nat.le_of_not_lt hn)]

theorem node_isNone_iff (w : Node) : Node.isNone w = true ↔ w = Node.none_ := by
  cases w <;> simp [Node.isNone]

theorem insOK_name_shape (s : String) (rest : List Part) (N : Node)
    (h : insOK (Part.name s :: rest) N = true) : ∃ d, N = Node.dict d := by
  cases N with
  | dict d => exact ⟨d, rfl⟩
  | none_ => cases rest <;> simp [insOK] at h
  | str _ => cases rest <;> simp [insOK] at h
  | int _ => cases rest <;> simp [insOK] at h
  | list _ => cases rest <;> simp [insOK] at h

theorem insOK_idx_shape (k : Nat) (rest : List Part) (N : Node)
    (h : insOK (Part.idx k :: rest) N = true) : ∃ l, N = Node.list l := by
  cases N with
  | list l => exact ⟨l, rfl⟩
  | none_ => cases rest <;> simp [insOK] at h
  | str _ => cases rest <;> simp [insOK] at h
  | int _ => cases rest <;> simp [insOK] at h
  | dict _ => cases rest <;> simp [insOK] at h

theorem insOK_append_shape (rest : List Part) (N : Node)
    (h : insOK (Part.append :: rest) N = true) : ∃ l, N = Node.list l := by
  cases N with
  | list l => exact ⟨l, rfl⟩
  | none_ => cases rest <;> simp [insOK] at h
  | str _ => cases rest <;> simp [insOK] at h
  | int _ => cases rest <;> simp [insOK] at h
  | dict _ => cases rest <;> simp [insOK] at h

theorem insOK_fresh (r : Part) (rs : List Part) :
    insOK (r :: rs) (freshFor (some r)) = true := by
  cases r with
  | name s =>
    cases rs with
    | nil => rfl
    | cons r2 rs2 => simp [insOK, freshFor, dictGet]
  | idx k =>
    cases rs with
    | nil => rfl
    | cons r2 rs2 =>
      have h : (growTo [] k)[k]?.getD Node.none_ = Node.none_ := by
        rw [← List.getD_eq_getElem?_getD, getD_growTo_self]; exact getD_nil_node k
      simp [insOK, freshFor, h, Node.isNone]
  | append => cases rs <;> rfl

theorem insOK_fresh_of_compat (pa : Part) (pr q : List Part)
    (hc : compat (pa :: pr) q = true) : insOK q (freshFor (some pa)) = true := by
  cases q with
  | nil => rfl
  | cons qa qr =>
    cases pa with
    | name s =>
      cases qa with
      | name t =>
        cases qr with
        | nil => rfl
        | cons q2 qrs => simp [insOK, freshFor, dictGet]
      | idx j => simp [compat] at hc
      | append => simp [compat] at hc
    | idx k =>
      cases qa with
      | name t => simp [compat] at hc
      | idx j =>
        cases qr with
        | nil => rfl
        | cons q2 qrs =>
          have h : (growTo [] j)[j]?.getD Node.none_ = Node.none_ := by
            rw [← List.getD_eq_getElem?_getD, getD_growTo_self]; exact getD_nil_node j
          simp [insOK, freshFor, h, Node.isNone]
      | append => cases qr <;> rfl
    | append =>
      cases qa with
      | name t => simp [compat] at hc
      | idx j =>
        cases qr with
        | nil => rfl
        | cons q2 qrs =>
          have h : (growTo [] j)[j]?.getD Node.none_ = Node.none_ := by
            rw [← List.getD_eq_getElem?_getD, getD_growTo_self]; exact getD_nil_node j
          simp [insOK, freshFor, h, Node.isNone]
      | append => cases qr <;> rfl

theorem insOK_dict_cond (s : String) (q2 : Part) (qrs : List Part)
    (d : List (String × Node))
    (h : insOK (Part.name s :: q2 :: qrs) (Node.dict d) = true)
    (w : Node) (hw : dictGet d s = some w) (hwc : w.isContainer = true) :
    insOK (q2 :: qrs) w = true := by
  simp only [insOK, hw, hwc, Bool.not_true, Bool.false_or] at h
  exact h

theorem insOK_list_cond (k : Nat) (q2 : Part) (qrs : List Part) (l : List Node)
    (h : insOK (Part.idx k :: q2 :: qrs) (Node.list l) = true) :
    l.getD k Node.none_ = Node.none_
      ∨ insOK (q2 :: qrs) (l.getD k Node.none_) = true := by
  simp only [insOK, getD_growTo_self] at h
  rcases Bool.or_eq_true_iff.mp h with h' | h'
  · exact Or.inl ((node_isNone_iff _).mp h')
  · exact Or.inr h'

theorem compat_name_cons (s : String) (p2 : Part) (prs : List Part)
    (q2 : Part) (qrs : List Part)
    (h : compat (Part.name s :: p2 :: prs) (Part.name s :: q2 :: qrs) = true) :
    compat (p2 :: prs) (q2 :: qrs) = true := by
  simpa [compat] using h

theorem compat_idx_cons (k : Nat) (p2 : Part) (prs : List Part)
    (q2 : Part) (qrs : List Part)
    (h : compat (Part.idx k :: p2 :: prs) (Part.idx k :: q2 :: qrs) = true) :
    compat (p2 :: prs) (q2 :: qrs) = true := by
  simpa [compat] using h

theorem compat_append_idx_cons (j : Nat) (p2 : Part) (prs : List Part)
    (q2 : Part) (qrs : List Part)
    (h : compat (Part.append :: p2 :: prs) (Part.idx j :: q2 :: qrs) = true) :
    compat (p2 :: prs) (q2 :: qrs) = true := by
  simpa [compat] using h

theorem getD_append_single (l : List Node) (e : Node) (j : Nat) :
    (l ++ [e]).getD j Node.none_ =
      if j < l.length then l.getD j Node.none_
      else if j = l.length then e else Node.none_ := by
  by_cases h : j < l.length
  · simp [List.getD_eq_getElem?_getD, List.getElem?_append_left h, h]
  · have h1 : l.length ≤ j := Nat.le_of_not_lt h
    rw [List.getD_eq_getElem?_getD, List.getElem?_append_right h1]
    by_cases h2 : j = l.length
    · subst h2
      simp [h]
    · have h3 : 1 ≤ j - l.length := by omega
      rw [List.getElem?_eq_none (by simpa using h3)]
      simp [h, h2]

theorem insOK_dict_iff (q : List Part) (d : List (String × Node)) :
    insOK q (Node.dict d) = true ↔
      (q = [] ∨ (∃ t, q = [Part.name t])
        ∨ ∃ t q2 qrs, q = Part.name t :: q2 :: qrs
            ∧ ∀ w, dictGet d t = some w → w.isContainer = true
                → insOK (q2 :: qrs) w = true) := by
  cases q with
  | nil => simp [insOK]
  | cons qa qr =>
    cases qa with
    | name t =>
      cases qr with
      | nil =>
        constructor
        · intro _
          exact Or.inr (Or.inl ⟨t, rfl⟩)
        · intro _
          rfl
      | cons q2 qrs =>
        constructor
        · intro h
          refine Or.inr (Or.inr ⟨t, q2, qrs, rfl, ?_⟩)
          intro w hw hwc
          exact insOK_dict_cond t q2 qrs d h w hw hwc
        · rintro (h | ⟨t', h⟩ | ⟨t', q2', qrs', heq, hcond⟩)
          · exact absurd h (by simp)
          · exact absurd h (by simp)
          · obtain ⟨h1, h2, h3⟩ : t = t' ∧ q2 = q2' ∧ qrs = qrs' := by
              have := heq
              simp at this
              exact ⟨this.1, this.2.1, this.2.2⟩
            subst h1; subst h2; subst h3
            cases hw : dictGet d t with
            | none => simp [insOK, hw]
            | some w =>
              cases hcont : w.isContainer with
              | false => simp [insOK, hw, hcont]
              | true => simp [insOK, hw, hcont, hcond w hw hcont]
    | idx j =>
      constructor
      · intro h
        cases qr <;> simp [insOK] at h
      · rintro (h | ⟨t, h⟩ | ⟨t, q2, qrs, heq, _⟩) <;> simp_all
    | append =>
      constructor
      · intro h
        cases qr <;> simp [insOK] at h
      · rintro (h | ⟨t, h⟩ | ⟨t, q2, qrs, heq, _⟩) <;> simp_all

theorem insOK_list_iff (q : List Part) (l : List Node) :
    insOK q (Node.list l) = true ↔
      (q = [] ∨ (∃ k, q = [Part.idx k]) ∨ (∃ qr, q = Part.append :: qr)
        ∨ ∃ k q2 qrs, q = Part.idx k :: q2 :: qrs
            ∧ (l.getD k Node.none_ = Node.none_
               ∨ insOK (q2 :: qrs) (l.getD k Node.none_) = true)) := by
  cases q with
  | nil => simp [insOK]
  | cons qa qr =>
    cases qa with
    | name t =>
      constructor
      · intro h
        cases qr <;> simp [insOK] at h
      · rintro (h | ⟨k, h⟩ | ⟨qr', h⟩ | ⟨k, q2, qrs, heq, _⟩) <;> simp_all
    | idx k =>
      cases qr with
      | nil =>
        constructor
        · intro _
          exact Or.inr (Or.inl ⟨k, rfl⟩)
        · intro _
          rfl
      | cons q2 qrs =>
        constructor
        · intro h
          exact Or.inr (Or.inr (Or.inr ⟨k, q2, qrs, rfl, insOK_list_cond k q2 qrs l h⟩))
        · rintro (h | ⟨k', h⟩ | ⟨qr', h⟩ | ⟨k', q2', qrs', heq, hcond⟩)
          · exact absurd h (by simp)
          · exact absurd h (by simp)
          · exact absurd h (by simp)
          · obtain ⟨h1, h2, h3⟩ : k = k' ∧ q2 = q2' ∧ qrs = qrs' := by
              have := heq
              simp at this
              exact ⟨this.1, this.2.1, this.2.2⟩
            subst h1; subst h2; subst h3
            simp only [insOK, getD_growTo_self]
            rcases hcond with h' | h'
            · have h'' : l[k]?.getD Node.none_ = Node.none_ := by
                rw [← List.getD_eq_getElem?_getD]; exact h'
              simp [h'', Node.isNone]
            · have h'' : insOK (q2 :: qrs) (l[k]?.getD Node.none_) = true := by
                rw [← List.getD_eq_getElem?_getD]; exact h'
              simp [h'']
    | append =>
      constructor
      · intro _
        exact Or.inr (Or.inr (Or.inl ⟨qr, rfl⟩))
      · intro _
        rfl

theorem insOK_dict_update_pres (d : List (String × Node)) (s : String) (e : Node)
    (q : List Part) (hq : insOK q (Node.dict d) = true)
    (hsame : ∀ q2 qrs, q = Part.name s :: q2 :: qrs → insOK (q2 :: qrs) e = true) :
    insOK q (Node.dict (dictSet d s e)) = true := by
  rw [insOK_dict_iff] at hq ⊢
  rcases hq with rfl | ⟨t, rfl⟩ | ⟨t, q2, qrs, rfl, hcond⟩
  · exact Or.inl rfl
  · exact Or.inr (Or.inl ⟨t, rfl⟩)
  · refine Or.inr (Or.inr ⟨t, q2, qrs, rfl, ?_⟩)
    intro w hw hwc
    by_cases hst : s = t
    · subst hst
      rw [dictGet_dictSet_self] at hw
      have he : e = w := by injection hw
      subst he
      exact hsame q2 qrs rfl
    · rw [dictGet_dictSet_ne d s t e (fun hh => hst hh.symm)] at hw
      exact hcond w hw hwc

theorem insOK_list_set_pres (l : List Node) (k : Nat) (e : Node) (q : List Part)
    (hq : insOK q (Node.list l) = true)
    (hsame : ∀ q2 qrs, q = Part.idx k :: q2 :: qrs → insOK (q2 :: qrs) e = true) :
    insOK q (Node.list (idxStep l (k, e))) = true := by
  rw [insOK_list_iff] at hq ⊢
  rcases hq with rfl | ⟨j, rfl⟩ | ⟨qr, rfl⟩ | ⟨j, q2, qrs, rfl, hcond⟩
  · exact Or.inl rfl
  · exact Or.inr (Or.inl ⟨j, rfl⟩)
  · exact Or.inr (Or.inr (Or.inl ⟨qr, rfl⟩))
  · refine Or.inr (Or.inr (Or.inr ⟨j, q2, qrs, rfl, ?_⟩))
    by_cases hjk : j = k
    · subst hjk
      rw [getD_idxStep_self]
      exact Or.inr (hsame q2 qrs rfl)
    · rw [getD_idxStep_ne l k e j hjk]
      exact hcond

theorem insOK_list_append_pres (l : List Node) (e : Node) (q : List Part)
    (hq : insOK q (Node.list l) = true)
    (hsame : ∀ q2 qrs, q = Part.idx l.length :: q2 :: qrs
        → insOK (q2 :: qrs) e = true) :
    insOK q (Node.list (l ++ [e])) = true := by
  rw [insOK_list_iff] at hq ⊢
  rcases hq with rfl | ⟨j, rfl⟩ | ⟨qr, rfl⟩ | ⟨j, q2, qrs, rfl, hcond⟩
  · exact Or.inl rfl
  · exact Or.inr (Or.inl ⟨j, rfl⟩)
  · exact Or.inr (Or.inr (Or.inl ⟨qr, rfl⟩))
  · refine Or.inr (Or.inr (Or.inr ⟨j, q2, qrs, rfl, ?_⟩))
    rw [getD_append_single]
    by_cases h1 : j < l.length
    · rw [if_pos h1]
      exact hcond
    · by_cases h2 : j = l.length
      · subst h2
        rw [if_neg h1, if_pos rfl]
        exact Or.inr (hsame q2 qrs rfl)
      · rw [if_neg h1, if_neg h2]
        exact Or.inl rfl

/-- Main safety lemma: on a node where the path is `insOK`, `insert`
succeeds, and the updated node stays `insOK` for every path compatible with
the inserted one. -/
theorem insertGo_preserves (p : List Part) : ∀ (v N : Node),
    insOK p N = true →
    ∃ N', insertGo p v N = Except.ok N'
      ∧ ∀ q, compat p q = true → insOK q N = true → insOK q N' = true := by
  induction p with
  | nil =>
    intro v N _
    exact ⟨N, rfl, fun _ _ hq => hq⟩
  | cons pa pr ih =>
    intro v N hp
    cases pa with
    | name s =>
      obtain ⟨d, rfl⟩ := insOK_name_shape s pr N hp
      cases pr with
      | nil =>
        refine ⟨Node.dict (dictSet d s v), rfl, ?_⟩
        intro q hc hq
        apply insOK_dict_update_pres d s v q hq
        intro q2 qrs heq
        subst heq
        simp [compat] at hc
      | cons p2 prs =>
        cases hget : dictGet d s with
        | some w =>
          cases hcont : w.isContainer with
          | true =>
            have hpw : insOK (p2 :: prs) w = true :=
              insOK_dict_cond s p2 prs d hp w hget hcont
            obtain ⟨e, he, hpres⟩ := ih v w hpw
            refine ⟨Node.dict (dictSet d s e), ?_, ?_⟩
            · simp [insertGo, hget, hcont, he]
            · intro q hc hq
              apply insOK_dict_update_pres d s e q hq
              intro q2 qrs heq
              subst heq
              have hcr := compat_name_cons s p2 prs q2 qrs hc
              exact hpres (q2 :: qrs) hcr
                (insOK_dict_cond s q2 qrs d hq w hget hcont)
          | false =>
            obtain ⟨e, he, hpres⟩ := ih v (freshFor (some p2)) (insOK_fresh p2 prs)
            refine ⟨Node.dict (dictSet d s e), ?_, ?_⟩
            · simp [insertGo, hget, hcont, he]
            · intro q hc hq
              apply insOK_dict_update_pres d s e q hq
              intro q2 qrs heq
              subst heq
              have hcr := compat_name_cons s p2 prs q2 qrs hc
              exact hpres (q2 :: qrs) hcr (insOK_fresh_of_compat p2 prs _ hcr)
        | none =>
          obtain ⟨e, he, hpres⟩ := ih v (freshFor (some p2)) (insOK_fresh p2 prs)
          refine ⟨Node.dict (dictSet d s e), ?_, ?_⟩
          · simp [insertGo, hget, he]
          · intro q hc hq
            apply insOK_dict_update_pres d s e q hq
            intro q2 qrs heq
            subst heq
            have hcr := compat_name_cons s p2 prs q2 qrs hc
            exact hpres (q2 :: qrs) hcr (insOK_fresh_of_compat p2 prs _ hcr)
    | idx k =>
      obtain ⟨l, rfl⟩ := insOK_idx_shape k pr N hp
      cases pr with
      | nil =>
        refine ⟨Node.list (idxStep l (k, v)), rfl, ?_⟩
        intro q hc hq
        apply insOK_list_set_pres l k v q hq
        intro q2 qrs heq
        subst heq
        simp [compat] at hc
      | cons p2 prs =>
        by_cases hcn : l.getD k Node.none_ = Node.none_
        · obtain ⟨e, he, hpres⟩ := ih v (freshFor (some p2)) (insOK_fresh p2 prs)
          have hcur : (growTo l k)[k]?.getD Node.none_ = Node.none_ := by
            rw [← List.getD_eq_getElem?_getD, getD_growTo_self]; exact hcn
          refine ⟨Node.list (idxStep l (k, e)), ?_, ?_⟩
          · simp [insertGo, hcur, Node.isNone, he, idxStep]
          · intro q hc hq
            apply insOK_list_set_pres l k e q hq
            intro q2 qrs heq
            subst heq
            have hcr := compat_idx_cons k p2 prs q2 qrs hc
            exact hpres (q2 :: qrs) hcr (insOK_fresh_of_compat p2 prs _ hcr)
        · have hpw : insOK (p2 :: prs) (l.getD k Node.none_) = true := by
            rcases insOK_list_cond k p2 prs l hp with h' | h'
            · exact absurd h' hcn
            · exact h'
          obtain ⟨e, he, hpres⟩ := ih v (l.getD k Node.none_) hpw
          have hcur : (growTo l k)[k]?.getD Node.none_ = l.getD k Node.none_ := by
            rw [← List.getD_eq_getElem?_getD, getD_growTo_self]
          have hnn : Node.isNone (l.getD k Node.none_) = false := by
            cases hnode : l.getD k Node.none_ with
            | none_ => exact absurd hnode hcn
            | str _ => rfl
            | int _ => rfl
            | dict _ => rfl
            | list _ => rfl
          have hnn' : (l[k]?.getD Node.none_).isNone = false := by
            rw [← List.getD_eq_getElem?_getD]; exact hnn
          have he' : insertGo (p2 :: prs) v (l[k]?.getD Node.none_) = Except.ok e := by
            rw [← List.getD_eq_getElem?_getD]; exact he
          refine ⟨Node.list (idxStep l (k, e)), ?_, ?_⟩
          · simp [insertGo, hcur, hnn', he', idxStep]
          · intro q hc hq
            apply insOK_list_set_pres l k e q hq
            intro q2 qrs heq
            subst heq
            have hcr := compat_idx_cons k p2 prs q2 qrs hc
            have hqw : insOK (q2 :: qrs) (l.getD k Node.none_) = true := by
              rcases insOK_list_cond k q2 qrs l hq with h' | h'
              · exact absurd h' hcn
              · exact h'
            exact hpres (q2 :: qrs) hcr hqw
    | append =>
      obtain ⟨l, rfl⟩ := insOK_append_shape pr N hp
      cases pr with
      | nil =>
        refine ⟨Node.list (l ++ [v]), rfl, ?_⟩
        intro q hc hq
        apply insOK_list_append_pres l v q hq
        intro q2 qrs heq
        subst heq
        simp [compat] at hc
      | cons p2 prs =>
        obtain ⟨e, he, hpres⟩ := ih v (freshFor (some p2)) (insOK_fresh p2 prs)
        refine ⟨Node.list (l ++ [e]), ?_, ?_⟩
        · simp [insertGo, he]
        · intro q hc hq
          apply insOK_list_append_pres l e q hq
          intro q2 qrs heq
          subst heq
          have hcr := compat_append_idx_cons l.length p2 prs q2 qrs hc
          exact hpres (q2 :: qrs) hcr (insOK_fresh_of_compat p2 prs _ hcr)

theorem insertValues_eq_foldIns (pk : List Part) (vs : List Node) (t : Node) :
    insertValues pk vs t = foldIns (vs.map fun v => (pk, v)) t := by
  induction vs generalizing t with
  | nil => rfl
  | cons v vs ih =>
    cases h : insertGo pk v t with
    | ok r => simp [insertValues, insert, foldIns, h, ih]
    | error m => simp [insertValues, insert, foldIns, h]

theorem foldIns_append (a b : List (List Part × Node)) (t : Node) :
    foldIns (a ++ b) t =
      (match foldIns a t with
       | .ok r => foldIns b r
       | .error m => Except.error m) := by
  induction a generalizing t with
  | nil => simp [foldIns]
  | cons e rest ih =>
    obtain ⟨p, v⟩ := e
    cases h : insertGo p v t with
    | ok r => simp [foldIns, h, ih]
    | error m => simp [foldIns, h]

theorem parseGo_eq_foldIns_ok (rd : List (String × Node)) :
    ∀ (t : Node), (∀ e ∈ rd, ∃ pk, parse_key e.1 = Except.ok pk) →
    parseGo rd t = foldIns (flattenReq rd) t := by
  induction rd with
  | nil =>
    intro t _
    rfl
  | cons e rest ih =>
    intro t hok
    obtain ⟨key, v⟩ := e
    obtain ⟨pk, hpk⟩ := hok (key, v) (List.mem_cons_self _ _)
    have hpath : pathOrNil key = pk := by simp [pathOrNil, hpk]
    have hflat : flattenReq ((key, v) :: rest)
        = ((normVals v).map fun x => (pk, x)) ++ flattenReq rest := by
      simp [flattenReq, hpath]
    rw [hflat, foldIns_append]
    have ih' : ∀ tt, parseGo rest tt = foldIns (flattenReq rest) tt :=
      fun tt => ih tt (fun e2 he2 => hok e2 (List.mem_cons_of_mem _ he2))
    cases h : insertValues pk (normVals v) t with
    | ok r =>
      have h2 : foldIns ((normVals v).map fun x => (pk, x)) t
          = Except.ok r := by
        rw [← insertValues_eq_foldIns]; exact h
      simp [parseGo, hpk, h, h2, ih']
    | error m =>
      have h2 : foldIns ((normVals v).map fun x => (pk, x)) t
          = Except.error m := by
        rw [← insertValues_eq_foldIns]; exact h
      simp [parseGo, hpk, h, h2]

theorem flattenReq_path_mem (rd : List (String × Node)) (e : List Part × Node)
    (he : e ∈ flattenReq rd) : ∃ r ∈ rd, e.1 = pathOrNil r.1 := by
  simp only [flattenReq, List.mem_flatMap, List.mem_map] at he
  obtain ⟨r, hr, v, _, hev⟩ := he
  exact ⟨r, hr, by rw [← hev]⟩

theorem insOK_init (p : List Part) (h : headIsField p = true) :
    insOK p (Node.dict []) = true := by
  cases p with
  | nil => rfl
  | cons a rest =>
    cases a with
    | name s =>
      cases rest with
      | nil => rfl
      | cons r rs => simp [insOK, dictGet]
    | idx k => simp [headIsField] at h
    | append => simp [headIsField] at h

theorem foldIns_ok (ins : List (List Part × Node)) : ∀ (N : Node),
    (∀ e ∈ ins, insOK e.1 N = true) →
    (∀ e ∈ ins, ∀ e2 ∈ ins, compat e.1 e2.1 = true) →
    ∃ N', foldIns ins N = Except.ok N' := by
  induction ins with
  | nil =>
    intro N _ _
    exact ⟨N, rfl⟩
  | cons e rest ih =>
    intro N hok hcompat
    obtain ⟨p, v⟩ := e
    obtain ⟨N1, hrun, hpres⟩ := insertGo_preserves p v N
      (hok (p, v) (List.mem_cons_self _ _))
    have hok1 : ∀ e2 ∈ rest, insOK e2.1 N1 = true := by
      intro e2 he2
      exact hpres e2.1
        (hcompat (p, v) (List.mem_cons_self _ _) e2 (List.mem_cons_of_mem _ he2))
        (hok e2 (List.mem_cons_of_mem _ he2))
    obtain ⟨N', h'⟩ := ih N1 hok1
      (fun a ha b hb => hcompat a (by simp [ha]) b (by simp [hb]))
    exact ⟨N', by simp [foldIns, hrun, h']⟩

/-- C10: on any input mapping satisfying the contract — every key tokenizes
to a path that is empty or begins with a `Field` segment, and the tokenized
paths are pairwise compatible (no tree location is written as a scalar by one
entry and traversed as a container by another, nor required to be a mapping
by one path and a sequence by another, with `Append` treated as possibly
aliasing any index) — `parse` terminates normally without any error: the
container-shape assertions inside `insert` can never fail. -/
theorem c10_contract_implies_no_error (reqdata : List (String × Node))
    (h1 : ∀ e ∈ reqdata, keyOK e.1 = true)
    (h2 : ∀ e ∈ reqdata, ∀ e2 ∈ reqdata, keysCompat e.1 e2.1 = true) :
    ∃ t, parse reqdata = Except.ok t := by
  have hok : ∀ e ∈ reqdata, ∃ pk, parse_key e.1 = Except.ok pk := by
    intro e he
    have h1' := h1 e he
    cases hpk : parse_key e.1 with
    | ok pk => exact ⟨pk, rfl⟩
    | error m =>
      simp only [keyOK, hpk] at h1'
      exact absurd h1' (by decide)
  rw [parse, parseGo_eq_foldIns_ok reqdata _ hok]
  apply foldIns_ok
  · intro e he
    obtain ⟨r, hr, heq⟩ := flattenReq_path_mem reqdata e he
    obtain ⟨pk, hpk⟩ := hok r hr
    have h1' := h1 r hr
    simp only [keyOK, hpk] at h1'
    rw [heq, show pathOrNil r.1 = pk from by simp [pathOrNil, hpk]]
    exact insOK_init pk h1'
  · intro e he e2 he2
    obtain ⟨r, hr, heq⟩ := flattenReq_path_mem reqdata e he
    obtain ⟨r2, hr2, heq2⟩ := flattenReq_path_mem reqdata e2 he2
    obtain ⟨pk, hpk⟩ := hok r hr
    obtain ⟨pk2, hpk2⟩ := hok r2 hr2
    have h2' := h2 r hr r2 hr2
    simp only [keysCompat, hpk, hpk2] at h2'
    rw [heq, heq2, show pathOrNil r.1 = pk from by simp [pathOrNil, hpk],
      show pathOrNil r2.1 = pk2 from by simp [pathOrNil, hpk2]]
    exact h2'

/-- Witness for C10 on a representative well-formed input mixing nested
fields, appends and indices. -/
theorem c10_contract_implies_no_error_witness :
    ∃ t, parse [("person[name]", Node.list [Node.str "Bob"]),
                ("person[tags][]", Node.list [Node.str "x", Node.str "y"]),
                ("headers[0][name]", Node.list [Node.str "h1"]),
                ("headers[1][name]", Node.list [Node.str "h2"])]
      = Except.ok t :=
  c10_contract_implies_no_error _ (by decide) (by decide)

theorem compat_refl (p : List Part) : compat p p = true := by
  induction p with
  | nil => rfl
  | cons a rest ih =>
    cases a with
    | name s =>
      cases rest with
      | nil => simp [compat]
      | cons r rs => simp [compat, ih]
    | idx k =>
      cases rest with
      | nil => simp [compat]
      | cons r rs => simp [compat, ih]
    | append => cases rest <;> rfl

theorem pe_name_name (s t : String) (p q : List Part) :
    pe (Part.name s :: p) (Part.name t :: q)
      = if s = t then !p.isEmpty && !q.isEmpty && pe p q else true := rfl

theorem pe_idx_idx (k j : Nat) (p q : List Part) :
    pe (Part.idx k :: p) (Part.idx j :: q)
      = if k = j then !p.isEmpty && !q.isEmpty && pe p q else true := rfl

theorem compat_name_name (s t : String) (p q : List Part) :
    compat (Part.name s :: p) (Part.name t :: q)
      = if s = t then (p.isEmpty && q.isEmpty) || (!p.isEmpty && !q.isEmpty && compat p q)
        else true := rfl

theorem compat_idx_idx (k j : Nat) (p q : List Part) :
    compat (Part.idx k :: p) (Part.idx j :: q)
      = if k = j then (p.isEmpty && q.isEmpty) || (!p.isEmpty && !q.isEmpty && compat p q)
        else true := rfl

theorem pe_symm (p : List Part) : ∀ (q : List Part), pe p q = true → pe q p = true := by
  induction p with
  | nil =>
    intro q _
    cases q with
    | nil => rfl
    | cons b qr => cases b <;> rfl
  | cons a pr ih =>
    intro q h
    cases q with
    | nil => rfl
    | cons b qr =>
      cases a with
      | name s =>
        cases b with
        | name t =>
          by_cases hst : s = t
          · subst hst
            rw [pe_name_name, if_pos rfl] at h ⊢
            simp only [Bool.and_eq_true] at h ⊢
            exact ⟨⟨h.1.2, h.1.1⟩, ih qr h.2⟩
          · rw [pe_name_name, if_neg (fun hh => hst hh.symm)]
        | idx j => simp [pe] at h
        | append => simp [pe] at h
      | idx k =>
        cases b with
        | name t => simp [pe] at h
        | idx j =>
          by_cases hkj : k = j
          · subst hkj
            rw [pe_idx_idx, if_pos rfl] at h ⊢
            simp only [Bool.and_eq_true] at h ⊢
            exact ⟨⟨h.1.2, h.1.1⟩, ih qr h.2⟩
          · rw [pe_idx_idx, if_neg (fun hh => hkj hh.symm)]
        | append => simp [pe] at h
      | append => cases b <;> simp [pe] at h

theorem pe_imp_compat (p : List Part) : ∀ (q : List Part),
    pe p q = true → compat p q = true := by
  induction p with
  | nil =>
    intro q _
    rfl
  | cons a pr ih =>
    intro q h
    cases q with
    | nil => cases a <;> rfl
    | cons b qr =>
      cases a with
      | name s =>
        cases b with
        | name t =>
          by_cases hst : s = t
          · subst hst
            rw [pe_name_name, if_pos rfl] at h
            rw [compat_name_name, if_pos rfl]
            simp only [Bool.and_eq_true] at h
            simp only [Bool.or_eq_true, Bool.and_eq_true]
            exact Or.inr ⟨h.1, ih qr h.2⟩
          · rw [compat_name_name, if_neg hst]
        | idx j => simp [pe] at h
        | append => simp [pe] at h
      | idx k =>
        cases b with
        | name t => simp [pe] at h
        | idx j =>
          by_cases hkj : k = j
          · subst hkj
            rw [pe_idx_idx, if_pos rfl] at h
            rw [compat_idx_idx, if_pos rfl]
            simp only [Bool.and_eq_true] at h
            simp only [Bool.or_eq_true, Bool.and_eq_true]
            exact Or.inr ⟨h.1, ih qr h.2⟩
          · rw [compat_idx_idx, if_neg hkj]
        | append => simp [pe] at h
      | append => cases b <;> simp [pe] at h

theorem pairwise_pe_compat (l : List (List Part × Node))
    (h : List.Pairwise (fun a b => pe a.1 b.1 = true) l) :
    ∀ e ∈ l, ∀ e2 ∈ l, compat e.1 e2.1 = true := by
  induction l with
  | nil =>
    intro e he
    cases he
  | cons a rest ih =>
    intro e he e2 he2
    rcases List.mem_cons.mp he with rfl | he <;>
      rcases List.mem_cons.mp he2 with heq2 | he2
    · rw [heq2]
      exact compat_refl _
    · exact pe_imp_compat _ _ ((List.pairwise_cons.mp h).1 e2 he2)
    · rw [heq2]
      exact pe_imp_compat _ _ (pe_symm _ _ ((List.pairwise_cons.mp h).1 e he))
    · exact ih (List.pairwise_cons.mp h).2 e he e2 he2

theorem pe_fresh_eq (r r2 : Part) (rs rs2 : List Part)
    (h : pe (r :: rs) (r2 :: rs2) = true) :
    freshFor (some r) = freshFor (some r2) := by
  cases r with
  | name s =>
    cases r2 with
    | name t => rfl
    | idx j => simp [pe] at h
    | append => simp [pe] at h
  | idx k =>
    cases r2 with
    | name t => simp [pe] at h
    | idx j => rfl
    | append => simp [pe] at h
  | append => cases r2 <;> simp [pe] at h

theorem veq_refl (N : Node) : VEq N N := fun _ => rfl

theorem veq_atomOf (N M : Node) (h : VEq N M) : atomOf N = atomOf M := by
  have := h []
  simpa [viewAt] using this

theorem veq_dict_right (d : List (String × Node)) (M : Node)
    (h : VEq (Node.dict d) M) : ∃ d2, M = Node.dict d2 := by
  have ha := veq_atomOf _ _ h
  cases M with
  | dict d2 => exact ⟨d2, rfl⟩
  | none_ => simp [atomOf] at ha
  | str _ => simp [atomOf] at ha
  | int _ => simp [atomOf] at ha
  | list _ => simp [atomOf] at ha

theorem veq_list_right (l : List Node) (M : Node)
    (h : VEq (Node.list l) M) : ∃ l2, M = Node.list l2 ∧ l.length = l2.length := by
  have ha := veq_atomOf _ _ h
  cases M with
  | list l2 =>
    refine ⟨l2, rfl, ?_⟩
    simpa [atomOf] using ha
  | none_ => simp [atomOf] at ha
  | str _ => simp [atomOf] at ha
  | int _ => simp [atomOf] at ha
  | dict _ => simp [atomOf] at ha

theorem veq_none_right (M : Node) (h : VEq Node.none_ M) : M = Node.none_ := by
  have ha := veq_atomOf _ _ h
  cases M with
  | none_ => rfl
  | str _ => simp [atomOf] at ha
  | int _ => simp [atomOf] at ha
  | dict _ => simp [atomOf] at ha
  | list _ => simp [atomOf] at ha

theorem veq_isContainer (N M : Node) (h : VEq N M) :
    N.isContainer = M.isContainer := by
  have ha := veq_atomOf _ _ h
  cases N <;> cases M <;> first
    | rfl
    | simp [atomOf] at ha

theorem veq_isNone (N M : Node) (h : VEq N M) : N.isNone = M.isNone := by
  have ha := veq_atomOf _ _ h
  cases N <;> cases M <;> first
    | rfl
    | simp [atomOf] at ha

theorem veq_dict_get (d1 d2 : List (String × Node))
    (h : VEq (Node.dict d1) (Node.dict d2)) (s : String) :
    (dictGet d1 s = none ∧ dictGet d2 s = none)
    ∨ ∃ w1 w2, dictGet d1 s = some w1 ∧ dictGet d2 s = some w2 ∧ VEq w1 w2 := by
  cases hg1 : dictGet d1 s with
  | none =>
    cases hg2 : dictGet d2 s with
    | none => exact Or.inl ⟨rfl, rfl⟩
    | some w2 =>
      have := h [Seg.fld s]
      simp [viewAt, hg1, hg2] at this
  | some w1 =>
    cases hg2 : dictGet d2 s with
    | none =>
      have := h [Seg.fld s]
      simp [viewAt, hg1, hg2] at this
    | some w2 =>
      refine Or.inr ⟨w1, w2, rfl, rfl, ?_⟩
      intro ap
      have := h (Seg.fld s :: ap)
      simpa [viewAt, hg1, hg2] using this

theorem veq_dict_intro (d1 d2 : List (String × Node))
    (h : ∀ s, (dictGet d1 s = none ∧ dictGet d2 s = none)
        ∨ ∃ w1 w2, dictGet d1 s = some w1 ∧ dictGet d2 s = some w2 ∧ VEq w1 w2) :
    VEq (Node.dict d1) (Node.dict d2) := by
  intro ap
  cases ap with
  | nil => rfl
  | cons seg ap2 =>
    cases seg with
    | fld s =>
      rcases h s with ⟨h1, h2⟩ | ⟨w1, w2, h1, h2, hw⟩
      · simp [viewAt, h1, h2]
      · simp only [viewAt, h1, h2]
        exact hw ap2
    | pos i => rfl

theorem veq_dict_of_getEq (d1 d2 : List (String × Node))
    (h : ∀ s, dictGet d1 s = dictGet d2 s) :
    VEq (Node.dict d1) (Node.dict d2) :=
  veq_dict_intro d1 d2 (fun s => by
    cases hg : dictGet d2 s with
    | none => exact Or.inl ⟨(h s).trans hg, rfl⟩
    | some w => exact Or.inr ⟨w, w, (h s).trans hg, rfl, veq_refl w⟩)

theorem veq_list_getD (l1 l2 : List Node) (h : VEq (Node.list l1) (Node.list l2)) :
    l1.length = l2.length
    ∧ ∀ i, VEq (l1.getD i Node.none_) (l2.getD i Node.none_) := by
  have hlen : l1.length = l2.length := by
    simpa [atomOf] using veq_atomOf _ _ h
  refine ⟨hlen, ?_⟩
  intro i
  by_cases hi : i < l1.length
  · have hi2 : i < l2.length := hlen ▸ hi
    intro ap
    have := h (Seg.pos i :: ap)
    rw [List.getD_eq_getElem?_getD, List.getD_eq_getElem?_getD,
      List.getElem?_eq_getElem hi, List.getElem?_eq_getElem hi2]
    simpa [viewAt, List.getElem?_eq_getElem, hi, hi2] using this
  · have hi2 : l2.length ≤ i := by omega
    rw [List.getD_eq_getElem?_getD, List.getD_eq_getElem?_getD,
      List.getElem?_eq_none (Nat.le_of_not_lt hi), List.getElem?_eq_none hi2]
    exact veq_refl _

theorem veq_list_intro_getD (l1 l2 : List Node) (hlen : l1.length = l2.length)
    (h : ∀ i, i < l1.length → VEq (l1.getD i Node.none_) (l2.getD i Node.none_)) :
    VEq (Node.list l1) (Node.list l2) := by
  intro ap
  cases ap with
  | nil => simp [viewAt, atomOf, hlen]
  | cons seg ap2 =>
    cases seg with
    | fld s => rfl
    | pos i =>
      by_cases hi : i < l1.length
      · have hi2 : i < l2.length := hlen ▸ hi
        have := h i hi ap2
        rw [List.getD_eq_getElem?_getD, List.getD_eq_getElem?_getD,
          List.getElem?_eq_getElem hi, List.getElem?_eq_getElem hi2] at this
        simp only [Option.getD_some] at this
        simpa [viewAt, List.getElem?_eq_getElem, hi, hi2] using this
      · have hi2 : l2.length ≤ i := by omega
        simp [viewAt, List.getElem?_eq_none, Nat.le_of_not_lt hi, hi2]

theorem veq_dictSet (d1 d2 : List (String × Node)) (s : String) (e1 e2 : Node)
    (hd : VEq (Node.dict d1) (Node.dict d2)) (he : VEq e1 e2) :
    VEq (Node.dict (dictSet d1 s e1)) (Node.dict (dictSet d2 s e2)) := by
  apply veq_dict_intro
  intro t
  by_cases hst : t = s
  · subst hst
    rw [dictGet_dictSet_self, dictGet_dictSet_self]
    exact Or.inr ⟨e1, e2, rfl, rfl, he⟩
  · rw [dictGet_dictSet_ne d1 s t e1 hst, dictGet_dictSet_ne d2 s t e2 hst]
    exact veq_dict_get d1 d2 hd t

theorem veq_dictSet2_same (d : List (String × Node)) (s : String)
    (x b1 y b2 : Node) (hb : VEq b1 b2) :
    VEq (Node.dict (dictSet (dictSet d s x) s b1))
      (Node.dict (dictSet (dictSet d s y) s b2)) := by
  apply veq_dict_intro
  intro u
  by_cases hu : u = s
  · subst hu
    rw [dictGet_dictSet_self, dictGet_dictSet_self]
    exact Or.inr ⟨b1, b2, rfl, rfl, hb⟩
  · rw [dictGet_dictSet_ne _ _ _ _ hu, dictGet_dictSet_ne _ _ _ _ hu,
      dictGet_dictSet_ne _ _ _ _ hu, dictGet_dictSet_ne _ _ _ _ hu]
    cases hg : dictGet d u with
    | none => exact Or.inl ⟨rfl, rfl⟩
    | some w => exact Or.inr ⟨w, w, rfl, rfl, veq_refl w⟩

theorem veq_idxStep (l1 l2 : List Node) (k : Nat) (e1 e2 : Node)
    (hl : VEq (Node.list l1) (Node.list l2)) (he : VEq e1 e2) :
    VEq (Node.list (idxStep l1 (k, e1))) (Node.list (idxStep l2 (k, e2))) := by
  obtain ⟨hlen, hget⟩ := veq_list_getD l1 l2 hl
  apply veq_list_intro_getD
  · rw [length_idxStep, length_idxStep, hlen]
  · intro i _
    by_cases hik : i = k
    · subst hik
      rw [getD_idxStep_self, getD_idxStep_self]
      exact he
    · rw [getD_idxStep_ne _ _ _ _ hik, getD_idxStep_ne _ _ _ _ hik]
      exact hget i

theorem veq_idxStep2_same (l : List Node) (k : Nat) (x b1 y b2 : Node)
    (hb : VEq b1 b2) :
    VEq (Node.list (idxStep (idxStep l (k, x)) (k, b1)))
      (Node.list (idxStep (idxStep l (k, y)) (k, b2))) := by
  apply veq_list_intro_getD
  · rw [length_idxStep, length_idxStep, length_idxStep, length_idxStep]
  · intro i _
    by_cases hik : i = k
    · subst hik
      rw [getD_idxStep_self, getD_idxStep_self]
      exact hb
    · rw [getD_idxStep_ne _ _ _ _ hik, getD_idxStep_ne _ _ _ _ hik,
        getD_idxStep_ne _ _ _ _ hik, getD_idxStep_ne _ _ _ _ hik]
      exact veq_refl _

theorem veq_append_single (l1 l2 : List Node) (e1 e2 : Node)
    (hl : VEq (Node.list l1) (Node.list l2)) (he : VEq e1 e2) :
    VEq (Node.list (l1 ++ [e1])) (Node.list (l2 ++ [e2])) := by
  obtain ⟨hlen, hget⟩ := veq_list_getD l1 l2 hl
  apply veq_list_intro_getD
  · simp [hlen]
  · intro i _
    rw [getD_append_single, getD_append_single, ← hlen]
    by_cases h1 : i < l1.length
    · rw [if_pos h1, if_pos h1]
      exact hget i
    · rw [if_neg h1, if_neg h1]
      by_cases h2 : i = l1.length
      · rw [if_pos h2, if_pos h2]
        exact he
      · rw [if_neg h2, if_neg h2]
        exact veq_refl _

theorem idxStep_comm (l : List Node) (k j : Nat) (a b : Node) (h : k ≠ j) :
    idxStep (idxStep l (k, a)) (j, b) = idxStep (idxStep l (j, b)) (k, a) := by
  apply ext_of_length_getD
  · rw [length_idxStep, length_idxStep, length_idxStep, length_idxStep]
    omega
  · intro i
    by_cases hik : i = k
    · subst hik
      rw [getD_idxStep_ne _ _ _ _ h, getD_idxStep_self, getD_idxStep_self]
    · by_cases hij : i = j
      · subst hij
        rw [getD_idxStep_self, getD_idxStep_ne _ _ _ _ (fun hh => h hh.symm),
          getD_idxStep_self]
      · rw [getD_idxStep_ne _ _ _ _ hij, getD_idxStep_ne _ _ _ _ hik,
          getD_idxStep_ne _ _ _ _ hik, getD_idxStep_ne _ _ _ _ hij]

/-! Decomposition of one `insertGo` step into its effect on the addressed
entry or slot. -/

theorem insertGo_name_dict (s : String) (rest : List Part) (v : Node)
    (d : List (String × Node)) :
    insertGo (Part.name s :: rest) v (Node.dict d)
      = match nameEffect rest v (dictGet d s) with
        | .ok e => Except.ok (Node.dict (dictSet d s e))
        | .error m => Except.error m := by
  cases rest with
  | nil => rfl
  | cons r rs => rfl

theorem insertGo_idx_list (k : Nat) (rest : List Part) (v : Node) (l : List Node) :
    insertGo (Part.idx k :: rest) v (Node.list l)
      = match idxEffect rest v ((growTo l k).getD k Node.none_) with
        | .ok e => Except.ok (Node.list (idxStep l (k, e)))
        | .error m => Except.error m := by
  cases rest with
  | nil => rfl
  | cons r rs => rfl

theorem insertGo_append_list (rest : List Part) (v : Node) (l : List Node) :
    insertGo (Part.append :: rest) v (Node.list l)
      = match appendEffect rest v with
        | .ok e => Except.ok (Node.list (l ++ [e]))
        | .error m => Except.error m := by
  cases rest with
  | nil => rfl
  | cons r rs => rfl

theorem insertGo_name_dict_shape (s : String) (rest : List Part) (v N N' : Node)
    (h : insertGo (Part.name s :: rest) v N = Except.ok N') :
    ∃ d, N = Node.dict d := by
  cases rest <;> cases N <;>
    first
      | exact ⟨_, rfl⟩
      | exact absurd h (by simp [insertGo])

theorem insertGo_idx_list_shape (k : Nat) (rest : List Part) (v N N' : Node)
    (h : insertGo (Part.idx k :: rest) v N = Except.ok N') :
    ∃ l, N = Node.list l := by
  cases rest <;> cases N <;>
    first
      | exact ⟨_, rfl⟩
      | exact absurd h (by simp [insertGo])

theorem insertGo_append_list_shape (rest : List Part) (v N N' : Node)
    (h : insertGo (Part.append :: rest) v N = Except.ok N') :
    ∃ l, N = Node.list l := by
  cases rest <;> cases N <;>
    first
      | exact ⟨_, rfl⟩
      | exact absurd h (by simp [insertGo])

theorem insert_name_run (s : String) (rest : List Part) (v : Node)
    (d : List (String × Node)) (N' : Node)
    (h : insertGo (Part.name s :: rest) v (Node.dict d) = Except.ok N') :
    ∃ e, nameEffect rest v (dictGet d s) = Except.ok e
      ∧ N' = Node.dict (dictSet d s e) := by
  rw [insertGo_name_dict] at h
  cases he : nameEffect rest v (dictGet d s) with
  | ok e =>
    rw [he] at h
    dsimp only at h
    injection h with h2
    exact ⟨e, rfl, h2.symm⟩
  | error m =>
    rw [he] at h
    dsimp only at h
    exact absurd h (by simp)

theorem insert_name_build (s : String) (rest : List Part) (v : Node)
    (d : List (String × Node)) (e : Node)
    (h : nameEffect rest v (dictGet d s) = Except.ok e) :
    insertGo (Part.name s :: rest) v (Node.dict d)
      = Except.ok (Node.dict (dictSet d s e)) := by
  rw [insertGo_name_dict, h]

theorem insert_idx_run (k : Nat) (rest : List Part) (v : Node)
    (l : List Node) (N' : Node)
    (h : insertGo (Part.idx k :: rest) v (Node.list l) = Except.ok N') :
    ∃ e, idxEffect rest v ((growTo l k).getD k Node.none_) = Except.ok e
      ∧ N' = Node.list (idxStep l (k, e)) := by
  rw [insertGo_idx_list] at h
  cases he : idxEffect rest v ((growTo l k).getD k Node.none_) with
  | ok e =>
    rw [he] at h
    dsimp only at h
    injection h with h2
    exact ⟨e, rfl, h2.symm⟩
  | error m =>
    rw [he] at h
    dsimp only at h
    exact absurd h (by simp)

theorem insert_idx_build (k : Nat) (rest : List Part) (v : Node)
    (l : List Node) (e : Node)
    (h : idxEffect rest v ((growTo l k).getD k Node.none_) = Except.ok e) :
    insertGo (Part.idx k :: rest) v (Node.list l)
      = Except.ok (Node.list (idxStep l (k, e))) := by
  rw [insertGo_idx_list, h]

theorem insert_append_run (rest : List Part) (v : Node)
    (l : List Node) (N' : Node)
    (h : insertGo (Part.append :: rest) v (Node.list l) = Except.ok N') :
    ∃ e, appendEffect rest v = Except.ok e ∧ N' = Node.list (l ++ [e]) := by
  rw [insertGo_append_list] at h
  cases he : appendEffect rest v with
  | ok e =>
    rw [he] at h
    dsimp only at h
    injection h with h2
    exact ⟨e, rfl, h2.symm⟩
  | error m =>
    rw [he] at h
    dsimp only at h
    exact absurd h (by simp)

theorem insert_append_build (rest : List Part) (v : Node)
    (l : List Node) (e : Node)
    (h : appendEffect rest v = Except.ok e) :
    insertGo (Part.append :: rest) v (Node.list l)
      = Except.ok (Node.list (l ++ [e])) := by
  rw [insertGo_append_list, h]

theorem isNone_false_of_isContainer (N : Node) (h : N.isContainer = true) :
    N.isNone = false := by
  cases N <;> first
    | rfl
    | exact absurd h (by simp [Node.isContainer])

theorem insertGo_cons_container (a : Part) (rest : List Part) (v N N' : Node)
    (h : insertGo (a :: rest) v N = Except.ok N') : N'.isContainer = true := by
  cases a with
  | name s =>
    obtain ⟨d, rfl⟩ := insertGo_name_dict_shape s rest v N N' h
    obtain ⟨e, _, rfl⟩ := insert_name_run s rest v d N' h
    rfl
  | idx k =>
    obtain ⟨l, rfl⟩ := insertGo_idx_list_shape k rest v N N' h
    obtain ⟨e, _, rfl⟩ := insert_idx_run k rest v l N' h
    rfl
  | append =>
    obtain ⟨l, rfl⟩ := insertGo_append_list_shape rest v N N' h
    obtain ⟨e, _, rfl⟩ := insert_append_run rest v l N' h
    rfl

/-- A single insertion is congruent along view-equality: running the same
parsed key and value on two view-equal trees either succeeds on both with
view-equal results, or fails on both. -/
theorem insertGo_congr (p : List Part) : ∀ (v N M N' : Node), VEq N M →
    insertGo p v N = Except.ok N' →
    ∃ M', insertGo p v M = Except.ok M' ∧ VEq N' M' := by
  induction p with
  | nil =>
    intro v N M N' hvm h
    injection h with h2
    subst h2
    exact ⟨M, rfl, hvm⟩
  | cons a pr ih =>
    intro v N M N' hvm h
    cases a with
    | name s =>
      obtain ⟨d1, rfl⟩ := insertGo_name_dict_shape s pr v N N' h
      obtain ⟨d2, rfl⟩ := veq_dict_right d1 M hvm
      obtain ⟨e, he, rfl⟩ := insert_name_run s pr v d1 N' h
      rcases veq_dict_get d1 d2 hvm s with ⟨hg1, hg2⟩ | ⟨w1, w2, hg1, hg2, hw⟩
      · rw [hg1] at he
        refine ⟨Node.dict (dictSet d2 s e),
          insert_name_build s pr v d2 e (by rw [hg2]; exact he),
          veq_dictSet d1 d2 s e e hvm (veq_refl e)⟩
      · rw [hg1] at he
        cases pr with
        | nil =>
          injection he with he2
          subst he2
          refine ⟨Node.dict (dictSet d2 s v),
            insert_name_build s [] v d2 v rfl,
            veq_dictSet d1 d2 s v v hvm (veq_refl v)⟩
        | cons r rs =>
          rw [show nameEffect (r :: rs) v (some w1)
              = insertGo (r :: rs) v
                  (if w1.isContainer then w1 else freshFor (some r)) from rfl] at he
          by_cases hc : w1.isContainer = true
          · rw [if_pos hc] at he
            obtain ⟨e2, he2, hve⟩ := ih v w1 w2 e hw he
            refine ⟨Node.dict (dictSet d2 s e2),
              insert_name_build s (r :: rs) v d2 e2 ?_,
              veq_dictSet d1 d2 s e e2 hvm hve⟩
            rw [hg2]
            rw [show nameEffect (r :: rs) v (some w2)
                = insertGo (r :: rs) v
                    (if w2.isContainer then w2 else freshFor (some r)) from rfl]
            rw [if_pos (by rw [← veq_isContainer w1 w2 hw]; exact hc)]
            exact he2
          · rw [if_neg hc] at he
            refine ⟨Node.dict (dictSet d2 s e),
              insert_name_build s (r :: rs) v d2 e ?_,
              veq_dictSet d1 d2 s e e hvm (veq_refl e)⟩
            rw [hg2]
            rw [show nameEffect (r :: rs) v (some w2)
                = insertGo (r :: rs) v
                    (if w2.isContainer then w2 else freshFor (some r)) from rfl]
            have hc2 : ¬ w2.isContainer = true := by
              rw [← veq_isContainer w1 w2 hw]; exact hc
            rw [if_neg hc2]
            exact he
    | idx k =>
      obtain ⟨l1, rfl⟩ := insertGo_idx_list_shape k pr v N N' h
      obtain ⟨l2, rfl, hlen⟩ := veq_list_right l1 M hvm
      obtain ⟨e, he, rfl⟩ := insert_idx_run k pr v l1 N' h
      have hcur : VEq ((growTo l1 k).getD k Node.none_)
          ((growTo l2 k).getD k Node.none_) := by
        rw [getD_growTo_self, getD_growTo_self]
        obtain ⟨_, hget⟩ := veq_list_getD l1 l2 hvm
        exact hget k
      cases pr with
      | nil =>
        injection he with he2
        subst he2
        exact ⟨Node.list (idxStep l2 (k, v)),
          insert_idx_build k [] v l2 v rfl,
          veq_idxStep l1 l2 k v v hvm (veq_refl v)⟩
      | cons r rs =>
        rw [show idxEffect (r :: rs) v ((growTo l1 k).getD k Node.none_)
            = insertGo (r :: rs) v
                (if ((growTo l1 k).getD k Node.none_).isNone then freshFor (some r)
                 else (growTo l1 k).getD k Node.none_) from rfl] at he
        by_cases hn : ((growTo l1 k).getD k Node.none_).isNone = true
        · rw [if_pos hn] at he
          refine ⟨Node.list (idxStep l2 (k, e)),
            insert_idx_build k (r :: rs) v l2 e ?_,
            veq_idxStep l1 l2 k e e hvm (veq_refl e)⟩
          rw [show idxEffect (r :: rs) v ((growTo l2 k).getD k Node.none_)
              = insertGo (r :: rs) v
                  (if ((growTo l2 k).getD k Node.none_).isNone then freshFor (some r)
                   else (growTo l2 k).getD k Node.none_) from rfl]
          rw [if_pos (by rw [← veq_isNone _ _ hcur]; exact hn)]
          exact he
        · rw [if_neg hn] at he
          obtain ⟨e2, he2, hve⟩ := ih v _ _ e hcur he
          refine ⟨Node.list (idxStep l2 (k, e2)),
            insert_idx_build k (r :: rs) v l2 e2 ?_,
            veq_idxStep l1 l2 k e e2 hvm hve⟩
          rw [show idxEffect (r :: rs) v ((growTo l2 k).getD k Node.none_)
              = insertGo (r :: rs) v
                  (if ((growTo l2 k).getD k Node.none_).isNone then freshFor (some r)
                   else (growTo l2 k).getD k Node.none_) from rfl]
          have hn2 : ¬ ((growTo l2 k).getD k Node.none_).isNone = true := by
            rw [← veq_isNone _ _ hcur]; exact hn
          rw [if_neg hn2]
          exact he2
    | append =>
      obtain ⟨l1, rfl⟩ := insertGo_append_list_shape pr v N N' h
      obtain ⟨l2, rfl, hlen⟩ := veq_list_right l1 M hvm
      obtain ⟨e, he, rfl⟩ := insert_append_run pr v l1 N' h
      exact ⟨Node.list (l2 ++ [e]),
        insert_append_build pr v l2 e he,
        veq_append_single l1 l2 e e hvm (veq_refl e)⟩

theorem dictGet_dictSet_comm (d : List (String × Node)) (s t : String)
    (a b : Node) (hst : s ≠ t) (u : String) :
    dictGet (dictSet (dictSet d s a) t b) u
      = dictGet (dictSet (dictSet d t b) s a) u := by
  by_cases hut : u = t
  · subst hut
    rw [dictGet_dictSet_self, dictGet_dictSet_ne _ _ _ _ (Ne.symm hst),
      dictGet_dictSet_self]
  · by_cases hus : u = s
    · subst hus
      rw [dictGet_dictSet_ne _ _ _ _ hst, dictGet_dictSet_self,
        dictGet_dictSet_self]
    · rw [dictGet_dictSet_ne _ _ _ _ hut, dictGet_dictSet_ne _ _ _ _ hus,
        dictGet_dictSet_ne _ _ _ _ hus, dictGet_dictSet_ne _ _ _ _ hut]

/-- Two pairwise-exchangeable insertions commute: if inserting `p` then `q`
succeeds from a tree, then inserting `q` then `p` also succeeds from that tree,
and the two result trees are view-equal. -/
theorem insertGo_exchange (p : List Part) : ∀ (q : List Part) (vp vq N N1 N2 : Node),
    pe p q = true →
    insertGo p vp N = Except.ok N1 →
    insertGo q vq N1 = Except.ok N2 →
    ∃ M1 M2, insertGo q vq N = Except.ok M1
      ∧ insertGo p vp M1 = Except.ok M2 ∧ VEq N2 M2 := by
  induction p with
  | nil =>
    intro q vp vq N N1 N2 hpe h1 h2
    injection h1 with h1'
    subst h1'
    exact ⟨N2, N2, h2, rfl, veq_refl N2⟩
  | cons a pr ih =>
    intro q vp vq N N1 N2 hpe h1 h2
    cases q with
    | nil =>
      injection h2 with h2'
      subst h2'
      exact ⟨N, N1, rfl, h1, veq_refl N1⟩
    | cons b qr =>
      cases a with
      | name s =>
        cases b with
        | name t =>
          obtain ⟨d, rfl⟩ := insertGo_name_dict_shape s pr vp N N1 h1
          obtain ⟨e1, he1, rfl⟩ := insert_name_run s pr vp d N1 h1
          obtain ⟨e2, he2, rfl⟩ := insert_name_run t qr vq (dictSet d s e1) N2 h2
          by_cases hst : s = t
          · subst hst
            rw [pe_name_name, if_pos rfl] at hpe
            simp only [Bool.and_eq_true] at hpe
            cases pr with
            | nil => simp at hpe
            | cons rp rps =>
              cases qr with
              | nil => simp at hpe
              | cons rq rqs =>
                have hpe' : pe (rp :: rps) (rq :: rqs) = true := hpe.2
                have hfr := pe_fresh_eq rp rq rps rqs hpe'
                rw [show nameEffect (rp :: rps) vp (dictGet d s)
                    = insertGo (rp :: rps) vp
                        (match dictGet d s with
                         | some w => if w.isContainer then w else freshFor (some rp)
                         | none => freshFor (some rp)) from rfl] at he1
                have hcont1 : e1.isContainer = true :=
                  insertGo_cons_container rp rps vp _ e1 he1
                rw [dictGet_dictSet_self] at he2
                rw [show nameEffect (rq :: rqs) vq (some e1)
                    = insertGo (rq :: rqs) vq
                        (if e1.isContainer then e1 else freshFor (some rq)) from rfl,
                  if_pos hcont1] at he2
                obtain ⟨f1, f2, hf1, hf2, hv⟩ :=
                  ih (rq :: rqs) vp vq _ e1 e2 hpe' he1 he2
                have hcontf1 : f1.isContainer = true :=
                  insertGo_cons_container rq rqs vq _ f1 hf1
                refine ⟨Node.dict (dictSet d s f1),
                  Node.dict (dictSet (dictSet d s f1) s f2),
                  insert_name_build s (rq :: rqs) vq d f1 ?_,
                  insert_name_build s (rp :: rps) vp (dictSet d s f1) f2 ?_,
                  veq_dictSet2_same d s e1 e2 f1 f2 hv⟩
                · rw [show nameEffect (rq :: rqs) vq (dictGet d s)
                      = insertGo (rq :: rqs) vq
                          (match dictGet d s with
                           | some w => if w.isContainer then w else freshFor (some rq)
                           | none => freshFor (some rq)) from rfl]
                  rw [← hfr]
                  exact hf1
                · rw [dictGet_dictSet_self]
                  rw [show nameEffect (rp :: rps) vp (some f1)
                      = insertGo (rp :: rps) vp
                          (if f1.isContainer then f1 else freshFor (some rp)) from rfl,
                    if_pos hcontf1]
                  exact hf2
          · rw [dictGet_dictSet_ne _ _ _ _ (fun hh => hst hh.symm)] at he2
            refine ⟨Node.dict (dictSet d t e2),
              Node.dict (dictSet (dictSet d t e2) s e1),
              insert_name_build t qr vq d e2 he2,
              insert_name_build s pr vp (dictSet d t e2) e1 ?_,
              veq_dict_of_getEq _ _ (dictGet_dictSet_comm d s t e1 e2 hst)⟩
            rw [dictGet_dictSet_ne _ _ _ _ hst]
            exact he1
        | idx j => simp [pe] at hpe
        | append => simp [pe] at hpe
      | idx k =>
        cases b with
        | name t => simp [pe] at hpe
        | idx j =>
          obtain ⟨l, rfl⟩ := insertGo_idx_list_shape k pr vp N N1 h1
          obtain ⟨e1, he1, rfl⟩ := insert_idx_run k pr vp l N1 h1
          obtain ⟨e2, he2, rfl⟩ := insert_idx_run j qr vq (idxStep l (k, e1)) N2 h2
          by_cases hkj : k = j
          · subst hkj
            rw [pe_idx_idx, if_pos rfl] at hpe
            simp only [Bool.and_eq_true] at hpe
            cases pr with
            | nil => simp at hpe
            | cons rp rps =>
              cases qr with
              | nil => simp at hpe
              | cons rq rqs =>
                have hpe' : pe (rp :: rps) (rq :: rqs) = true := hpe.2
                have hfr := pe_fresh_eq rp rq rps rqs hpe'
                rw [show idxEffect (rp :: rps) vp ((growTo l k).getD k Node.none_)
                    = insertGo (rp :: rps) vp
                        (if ((growTo l k).getD k Node.none_).isNone then freshFor (some rp)
                         else (growTo l k).getD k Node.none_) from rfl] at he1
                have hcont1 : e1.isContainer = true :=
                  insertGo_cons_container rp rps vp _ e1 he1
                rw [getD_growTo_self, getD_idxStep_self] at he2
                have hne1 : ¬ e1.isNone = true := by
                  rw [isNone_false_of_isContainer e1 hcont1]
                  simp
                rw [show idxEffect (rq :: rqs) vq e1
                    = insertGo (rq :: rqs) vq
                        (if e1.isNone then freshFor (some rq) else e1) from rfl,
                  if_neg hne1] at he2
                obtain ⟨f1, f2, hf1, hf2, hv⟩ :=
                  ih (rq :: rqs) vp vq _ e1 e2 hpe' he1 he2
                have hcontf1 : f1.isContainer = true :=
                  insertGo_cons_container rq rqs vq _ f1 hf1
                have hnef1 : ¬ f1.isNone = true := by
                  rw [isNone_false_of_isContainer f1 hcontf1]
                  simp
                refine ⟨Node.list (idxStep l (k, f1)),
                  Node.list (idxStep (idxStep l (k, f1)) (k, f2)),
                  insert_idx_build k (rq :: rqs) vq l f1 ?_,
                  insert_idx_build k (rp :: rps) vp (idxStep l (k, f1)) f2 ?_,
                  veq_idxStep2_same l k e1 e2 f1 f2 hv⟩
                · rw [show idxEffect (rq :: rqs) vq ((growTo l k).getD k Node.none_)
                      = insertGo (rq :: rqs) vq
                          (if ((growTo l k).getD k Node.none_).isNone then freshFor (some rq)
                           else (growTo l k).getD k Node.none_) from rfl]
                  rw [← hfr]
                  exact hf1
                · rw [getD_growTo_self, getD_idxStep_self]
                  rw [show idxEffect (rp :: rps) vp f1
                      = insertGo (rp :: rps) vp
                          (if f1.isNone then freshFor (some rp) else f1) from rfl,
                    if_neg hnef1]
                  exact hf2
          · rw [getD_growTo_self, getD_idxStep_ne _ _ _ _ (fun hh => hkj hh.symm),
              ← getD_growTo_self l j] at he2
            refine ⟨Node.list (idxStep l (j, e2)),
              Node.list (idxStep (idxStep l (j, e2)) (k, e1)),
              insert_idx_build j qr vq l e2 he2,
              insert_idx_build k pr vp (idxStep l (j, e2)) e1 ?_, ?_⟩
            · rw [getD_growTo_self, getD_idxStep_ne _ _ _ _ hkj, ← getD_growTo_self l k]
              exact he1
            · rw [idxStep_comm l k j e1 e2 hkj]
              exact veq_refl _
        | append => simp [pe] at hpe
      | append => cases b <;> simp [pe] at hpe

theorem foldIns_congr (ws : List (List Part × Node)) : ∀ (N M N' : Node), VEq N M →
    foldIns ws N = Except.ok N' → ∃ M', foldIns ws M = Except.ok M' ∧ VEq N' M' := by
  induction ws with
  | nil =>
    intro N M N' hvm h
    injection h with h2
    subst h2
    exact ⟨M, rfl, hvm⟩
  | cons w ws ih =>
    intro N M N' hvm h
    obtain ⟨p, v⟩ := w
    simp only [foldIns] at h ⊢
    cases hr : insertGo p v N with
    | error m =>
      rw [hr] at h
      dsimp only at h
      exact absurd h (by simp)
    | ok r =>
      rw [hr] at h
      dsimp only at h
      obtain ⟨m1, hm1, hvm1⟩ := insertGo_congr p v N M r hvm hr
      obtain ⟨M', hM', hv'⟩ := ih r m1 N' hvm1 h
      rw [hm1]
      dsimp only
      exact ⟨M', hM', hv'⟩

theorem perm_flattenReq (rd rd' : List (String × Node)) (hp : List.Perm rd rd') :
    List.Perm (flattenReq rd) (flattenReq rd') := by
  induction hp with
  | nil => exact List.Perm.refl _
  | cons x h ih =>
    simp only [flattenReq, List.flatMap_cons] at ih ⊢
    exact ih.append_left _
  | swap x y l =>
    simp only [flattenReq, List.flatMap_cons]
    rw [← List.append_assoc, ← List.append_assoc]
    exact List.perm_append_comm.append_right _
  | trans h1 h2 ih1 ih2 => exact ih1.trans ih2

/-- Running a list of pairwise-exchangeable writes in any permuted order
succeeds whenever the original order succeeds, with view-equal results. -/
theorem foldIns_perm_veq (ws ws' : List (List Part × Node)) (hp : List.Perm ws ws') :
    ∀ (N N' : Node), List.Pairwise (fun a b => pe a.1 b.1 = true) ws →
    foldIns ws N = Except.ok N' →
    ∃ M', foldIns ws' N = Except.ok M' ∧ VEq N' M' := by
  induction hp with
  | nil =>
    intro N N' _ h
    exact ⟨N', h, veq_refl _⟩
  | cons x hxs ih =>
    intro N N' hpw h
    obtain ⟨p, v⟩ := x
    simp only [foldIns] at h ⊢
    cases hr : insertGo p v N with
    | error m =>
      rw [hr] at h
      dsimp only at h
      exact absurd h (by simp)
    | ok r =>
      rw [hr] at h
      dsimp only at h
      dsimp only
      exact ih r N' (List.pairwise_cons.mp hpw).2 h
  | swap x y l =>
    intro N N' hpw h
    have hyx : pe y.1 x.1 = true := (List.pairwise_cons.mp hpw).1 x (by simp)
    obtain ⟨py, vy⟩ := y
    obtain ⟨px, vx⟩ := x
    simp only [foldIns] at h ⊢
    cases hr1 : insertGo py vy N with
    | error m =>
      rw [hr1] at h
      dsimp only at h
      exact absurd h (by simp)
    | ok r1 =>
      rw [hr1] at h
      dsimp only at h
      cases hr2 : insertGo px vx r1 with
      | error m =>
        rw [hr2] at h
        dsimp only at h
        exact absurd h (by simp)
      | ok r2 =>
        rw [hr2] at h
        dsimp only at h
        obtain ⟨m1, m2, hm1, hm2, hv⟩ :=
          insertGo_exchange py px vy vx N r1 r2 hyx hr1 hr2
        obtain ⟨M', hM', hvf⟩ := foldIns_congr l r2 m2 N' hv h
        rw [hm1]
        dsimp only
        rw [hm2]
        dsimp only
        exact ⟨M', hM', hvf⟩
  | trans hab hbc iha ihb =>
    intro N N' hpw h
    obtain ⟨M1, hM1, hv1⟩ := iha N N' hpw h
    have hpw2 := (hab.pairwise_iff (fun hh => pe_symm _ _ hh)).mp hpw
    obtain ⟨M2, hM2, hv2⟩ := ihb N M1 hpw2 hM1
    exact ⟨M2, hM2, fun ap => (hv1 ap).trans (hv2 ap)⟩

/-- C7: permuting the entries of a request whose tokenized write paths are
pairwise exchangeable — any two flattened writes share only Field/Index
segments along their common spine and fork at distinct field names or
distinct indices before either path ends (which covers explicit-Index
writes such as the claim's `headers[k][name]` family: multiple roots,
distinct indices under one root, and distinct sub-fields under one index,
while excluding Append writes at a shared location and overlapping
Field-terminated paths) — yields a structurally identical result tree:
`parse` succeeds on the permuted request too, Index targets land by index
and not by arrival order, and the two trees agree at every access path,
i.e. they are identical up to mapping insertion order, which Python dict
equality ignores. -/
theorem c7_writes_order_insensitive
    (rd rd' : List (String × Node)) (hp : List.Perm rd rd')
    (hk : ∀ e ∈ rd, ∃ pk, parse_key e.1 = Except.ok pk)
    (hpe : List.Pairwise (fun a b => pe a.1 b.1 = true) (flattenReq rd))
    (N' : Node) (h : parse rd = Except.ok N') :
    ∃ M', parse rd' = Except.ok M' ∧ VEq N' M' := by
  have hk' : ∀ e ∈ rd', ∃ pk, parse_key e.1 = Except.ok pk :=
    fun e he => hk e (hp.mem_iff.mpr he)
  have h1 : foldIns (flattenReq rd) (Node.dict []) = Except.ok N' := by
    rw [← parseGo_eq_foldIns_ok rd (Node.dict []) hk]
    exact h
  obtain ⟨M', hM', hv⟩ := foldIns_perm_veq (flattenReq rd) (flattenReq rd')
    (perm_flattenReq rd rd' hp) (Node.dict []) N' hpe h1
  refine ⟨M', ?_, hv⟩
  show parseGo rd' (Node.dict []) = Except.ok M'
  rw [parseGo_eq_foldIns_ok rd' (Node.dict []) hk']
  exact hM'

theorem c7_writes_order_insensitive_witness :
    ∃ M', parse [("headers[0][name]", Node.list [Node.str "h1"]),
                 ("headers[1][name]", Node.list [Node.str "h2"]),
                 ("headers[2][name]", Node.list [Node.str "h3"])]
        = Except.ok M'
      ∧ VEq (Node.dict [("headers", Node.list
          [Node.dict [("name", Node.str "h1")],
           Node.dict [("name", Node.str "h2")],
           Node.dict [("name", Node.str "h3")]])]) M' := by
  refine c7_writes_order_insensitive
    [("headers[2][name]", Node.list [Node.str "h3"]),
     ("headers[0][name]", Node.list [Node.str "h1"]),
     ("headers[1][name]", Node.list [Node.str "h2"])]
    [("headers[0][name]", Node.list [Node.str "h1"]),
     ("headers[1][name]", Node.list [Node.str "h2"]),
     ("headers[2][name]", Node.list [Node.str "h3"])]
    ((List.Perm.swap ("headers[0][name]", Node.list [Node.str "h1"])
        ("headers[2][name]", Node.list [Node.str "h3"])
        [("headers[1][name]", Node.list [Node.str "h2"])]).trans
      ((List.Perm.swap ("headers[1][name]", Node.list [Node.str "h2"])
          ("headers[2][name]", Node.list [Node.str "h3"]) []).cons
        ("headers[0][name]", Node.list [Node.str "h1"])))
    ?_ ?_ _ rfl
  · intro e he
    simp only [List.mem_cons, List.not_mem_nil, or_false] at he
    rcases he with rfl | rfl | rfl
    · exact ⟨[Part.name "headers", Part.idx 2, Part.name "name"], rfl⟩
    · exact ⟨[Part.name "headers", Part.idx 0, Part.name "name"], rfl⟩
    · exact ⟨[Part.name "headers", Part.idx 1, Part.name "name"], rfl⟩
  · decide

end Fodantic

